import Mathlib

/-!
# Verification of the dense DFA core (`src/dfa.rs`)

Shallow embedding of the table-based DFA from `src/dfa.rs`: the `DFA`
container, its construction API (`empty_with_byte_classes`, `add_empty_state`,
`set_transition`, `swap_states`, `truncate_states`, `shuffle_match_states`),
its transformations (`premultiply`, `to_sized`), serialization (`to_bytes`)
and the sparse-transition coalescing of state rows.

State identifiers of the generic parameter `S : StateID` are modelled as
`Nat` together with an explicit `maxId : Nat` standing for `S::max_id()`.
Machine-integer narrowing (`S::from_usize`, `T::from_usize(x.to_usize())`)
is numerically the identity on the values the code certifies to be in
range, so it is modelled as the identity.  Mutating methods on `&mut self`
that return a `Result` are modelled as functions returning the new `DFA`
paired with an `Except` value; an error constructed before any mutation
pairs with the unchanged `DFA`, mirroring the source's early returns.
-/

set_option maxHeartbeats 1000000
set_option maxRecDepth 100000

namespace RegexAutomata

/-- The four DFA kinds, from `enum DFAKind` in `src/dfa.rs`. -/
inductive DFAKind where
  | Basic
  | Premultiplied
  | ByteClass
  | PremultipliedByteClass
deriving DecidableEq, Repr

/-- `DFAKind::is_byte_class`. -/
def DFAKind.is_byte_class : DFAKind → Bool
  | .Basic | .Premultiplied => false
  | .ByteClass | .PremultipliedByteClass => true

/-- `DFAKind::is_premultiplied`. -/
def DFAKind.is_premultiplied : DFAKind → Bool
  | .Basic | .ByteClass => false
  | .Premultiplied | .PremultipliedByteClass => true

/-- `DFAKind::premultiplied`.  The source panics on the two premultiplied
variants; every caller guards with `is_premultiplied`, so the panic branch is
unreachable and is modelled as the identity. -/
def DFAKind.premultiplied : DFAKind → DFAKind
  | .Basic => .Premultiplied
  | .ByteClass => .PremultipliedByteClass
  | .Premultiplied => .Premultiplied
  | .PremultipliedByteClass => .PremultipliedByteClass

/-- `DFAKind::to_byte`. -/
def DFAKind.to_byte : DFAKind → Nat
  | .Basic => 0
  | .Premultiplied => 1
  | .ByteClass => 2
  | .PremultipliedByteClass => 3

/-- The error kinds surfaced by the core (`error.rs` is not part of the
sources; the constructors are modelled from the spec §7: `StateIDOverflow`
carries the representation's maximum id, `SerializeError` carries a reason). -/
inductive Error where
  | StateIDOverflow (max_id : Nat)
  | PremultiplyOverflow
  | SerializeError (reason : String)
deriving DecidableEq, Repr

/-- Modelled from the spec: `state_id::dead_id()`; the dead state
"conventionally id 0" (glossary), "the dead state always has ID 0". -/
def dead_id : Nat := 0

/-- Modelled from the spec: `state_id::next_state_id` (the `state_id` module
is not part of the sources).  Per §4.1/§9, construction fails with
`StateIDOverflow` when the next id would exceed the representation's
maximum. -/
def next_state_id (maxId current : Nat) : Except Error Nat :=
  if current + 1 > maxId then Except.error (Error.StateIDOverflow maxId)
  else Except.ok (current + 1)

/-- Modelled from the spec: `state_id::premultiply_overflow_error` (the
`state_id` module is not part of the sources).  Per §3 invariant 6 and §7,
premultiplication requires `(state_count - 1) * alphabet_len <= max_id` and
otherwise raises `PremultiplyOverflow`. -/
def premultiply_overflow_error (maxId current alpha : Nat) : Except Error Unit :=
  if current * alpha > maxId then Except.error Error.PremultiplyOverflow
  else Except.ok ()

/-- `ALPHABET_LEN` from `src/dfa.rs`. -/
def ALPHABET_LEN : Nat := 256

/-- The DFA container (`struct DFA<S>` in `src/dfa.rs`), with state ids as
`Nat` and the byte-class map as a list of byte values. -/
structure DFA where
  kind : DFAKind
  start : Nat
  state_count : Nat
  max_match : Nat
  alphabet_len : Nat
  byte_classes : List Nat
  trans : List Nat
deriving DecidableEq, Repr

namespace DFA

/-- `DFA::state_id_to_offset`. -/
def state_id_to_offset (dfa : DFA) (id : Nat) : Nat :=
  if dfa.kind.is_premultiplied then id else id * dfa.alphabet_len

/-- `DFA::byte_to_class`.  The source indexes `byte_classes[b]` for a byte
`b`; in-range indexing is modelled with `getD`. -/
def byte_to_class (dfa : DFA) (b : Nat) : Nat :=
  if dfa.kind.is_byte_class then dfa.byte_classes.getD b 0 else b

/-- `DFA::is_match_state`: `id <= self.max_match && id != dead_id()`. -/
def is_match_state (dfa : DFA) (id : Nat) : Bool :=
  decide (id ≤ dfa.max_match) && decide (id ≠ dead_id)

/-- `DFA::set_start_state`.  The source asserts `start < state_count`;
claims about it carry that bound as a hypothesis. -/
def set_start_state (dfa : DFA) (start : Nat) : DFA :=
  { dfa with start := start }

/-- `DFA::set_max_match_state`. -/
def set_max_match_state (dfa : DFA) (id : Nat) : DFA :=
  { dfa with max_match := id }

/-- `DFA::set_transition`: stores `to` at the row of `from`, column
`byte_to_class input`. -/
def set_transition (dfa : DFA) (from_ : Nat) (input : Nat) (to_ : Nat) : DFA :=
  let input := dfa.byte_to_class input
  { dfa with trans := dfa.trans.set (dfa.state_id_to_offset from_ + input) to_ }

/-- `DFA::add_empty_state`.  Computes the fresh id (the `?` early-returns the
overflow error before any mutation, hence the error case pairs with the
unchanged DFA), then appends `alphabet_len` dead transitions and increments
`state_count` (the `checked_add(1).unwrap()` cannot fail for `Nat`). -/
def add_empty_state (maxId : Nat) (dfa : DFA) : DFA × Except Error Nat :=
  match (if dfa.state_count = 0 then Except.ok 0
         else next_state_id maxId (dfa.state_count - 1)) with
  | Except.error e => (dfa, Except.error e)
  | Except.ok id =>
      ({ dfa with
          trans := dfa.trans ++ List.replicate dfa.alphabet_len dead_id,
          state_count := dfa.state_count + 1 },
       Except.ok id)

/-- `DFA::empty_with_byte_classes`.  The source asserts that the map is empty
or has length 256; claims carry that as a hypothesis.  The final
`add_empty_state().unwrap()` always succeeds because `state_count = 0` there,
so the resulting DFA is the first component of the pair. -/
def empty_with_byte_classes (maxId : Nat) (byte_classes : List Nat) : DFA :=
  let p :=
    if byte_classes.isEmpty then (DFAKind.Basic, ALPHABET_LEN)
    else (DFAKind.ByteClass, byte_classes.getD 255 0 + 1)
  (add_empty_state maxId
    { kind := p.1,
      start := dead_id,
      state_count := 0,
      max_match := 1,
      alphabet_len := p.2,
      byte_classes := byte_classes,
      trans := [] }).1

/-- `DFA::empty`. -/
def empty (maxId : Nat) : DFA := empty_with_byte_classes maxId []

/-- `DFA::truncate_states`. -/
def truncate_states (dfa : DFA) (count : Nat) : DFA :=
  { dfa with
      trans := dfa.trans.take (count * dfa.alphabet_len),
      state_count := count }

end DFA

/-- One element swap `trans.swap(i, j)` of `Vec::swap`: exchanges the
elements at positions `i` and `j`. -/
def swapIdx (l : List Nat) (i j : Nat) : List Nat :=
  (l.set i (l.getD j 0)).set j (l.getD i 0)

/-- The loop of `DFA::swap_states`: `for b in 0..m { trans.swap(o1+b, o2+b) }`,
unrolled as a recursion on the number `m` of columns already swapped. -/
def swapRun (o1 o2 : Nat) : Nat → List Nat → List Nat
  | 0, l => l
  | m + 1, l => swapIdx (swapRun o1 o2 m l) (o1 + m) (o2 + m)

/-- `DFA::swap_states`: exchanges the two rows at the offsets of `id1` and
`id2` column by column. -/
def DFA.swap_states (dfa : DFA) (id1 id2 : Nat) : DFA :=
  { dfa with
      trans :=
        swapRun (dfa.state_id_to_offset id1) (dfa.state_id_to_offset id2)
          dfa.alphabet_len dfa.trans }

/-- Fuel-indexed form of the advancing `while` loops of
`DFA::shuffle_match_states`: `while fnm < bound && is_match[fnm] { fnm += 1 }`.
Each iteration increases `fnm`, so `bound - fnm` units of fuel suffice and
the fuel can never run out while the guard holds. -/
def advanceGo (is_match : List Bool) (bound : Nat) : Nat → Nat → Nat
  | 0, fnm => fnm
  | d + 1, fnm =>
    if fnm < bound ∧ is_match.getD fnm false = true then
      advanceGo is_match bound d (fnm + 1)
    else fnm

/-- The advancing `while` loops of `DFA::shuffle_match_states`, with the
exact fuel `bound - fnm`. -/
def advance (is_match : List Bool) (bound : Nat) (fnm : Nat) : Nat :=
  advanceGo is_match bound (bound - fnm) fnm

/-- The rewriting through the swap table in `DFA::shuffle_match_states`:
`if swaps[next] != dead_id() { *next = swaps[next] }`. -/
def permOf (swaps : List Nat) (s : Nat) : Nat :=
  if swaps.getD s 0 ≠ dead_id then swaps.getD s 0 else s

/-- The main `while cur > first_non_match` loop of
`DFA::shuffle_match_states`, recursing on `cur`.  When `cur = 0` the guard
`0 > first_non_match` is false for `Nat`, so the loop exits, which is the
base case.  `swap_states` is inlined at the unpremultiplied offsets
`id * alphabet_len` (the function asserts the DFA is not premultiplied).
Returns the final `first_non_match`, transition table and swap table. -/
def shuffleLoop (alpha : Nat) (is_match : List Bool) :
    Nat → Nat → List Nat → List Nat → Nat × List Nat × List Nat
  | 0, fnm, tbl, swaps => (fnm, tbl, swaps)
  | cur + 1, fnm, tbl, swaps =>
    if fnm < cur + 1 then
      if is_match.getD (cur + 1) false = true then
        shuffleLoop alpha is_match cur
          (advance is_match (cur + 1) (fnm + 1))
          (swapRun ((cur + 1) * alpha) (fnm * alpha) alpha tbl)
          ((swaps.set (cur + 1) fnm).set fnm (cur + 1))
      else
        shuffleLoop alpha is_match cur fnm tbl swaps
    else (fnm, tbl, swaps)

/-- The final rewrite loop of `DFA::shuffle_match_states`: for every state
`id in 0..state_count` each transition of its row is rewritten through the
swap table.  The rows `[id*alphabet_len, (id+1)*alphabet_len)` for
`id < state_count` tile the whole table (invariant 3:
`trans.len() == state_count * alphabet_len`), so the loop is the pointwise
map below; the claims carry the tiling invariant as a hypothesis. -/
def remapTable (swaps : List Nat) (trans : List Nat) : List Nat :=
  trans.map (permOf swaps)

/-- The state of `DFA::shuffle_match_states` after its swap loop: the final
`first_non_match`, the swapped transition table and the swap table
(`first_non_match` starts at 1 and is advanced past contiguous match states;
`swaps` starts as `vec![dead_id(); state_count]`; `cur` starts at
`state_count - 1`). -/
def shuffleResult (dfa : DFA) (is_match : List Bool) :
    Nat × List Nat × List Nat :=
  shuffleLoop dfa.alphabet_len is_match (dfa.state_count - 1)
    (advance is_match dfa.state_count 1)
    dfa.trans (List.replicate dfa.state_count dead_id)

/-- `DFA::shuffle_match_states`.  The source asserts the DFA is not
premultiplied (claims carry that as a hypothesis) and returns immediately
when `state_count <= 2`.  Otherwise it runs the swap loop, rewrites every
stored id and the start id through the swap table, and sets
`max_match = first_non_match - 1`. -/
def DFA.shuffle_match_states (dfa : DFA) (is_match : List Bool) : DFA :=
  if dfa.state_count ≤ 2 then dfa
  else
    let r := shuffleResult dfa is_match
    { dfa with
        trans := remapTable r.2.2 r.2.1,
        start := permOf r.2.2 dfa.start,
        max_match := r.1 - 1 }

/-- `DFA::premultiply`.  Early-returns `Ok(())` when already premultiplied or
empty; checks `premultiply_overflow_error` before mutating (so the error case
pairs with the unchanged DFA); otherwise multiplies every stored id, the
start id and `max_match` by `alphabet_len` and updates the kind.  The
per-state rewrite loop covers the whole table under invariant 3, so it is
the pointwise map below. -/
def DFA.premultiply (maxId : Nat) (dfa : DFA) : DFA × Except Error Unit :=
  if dfa.kind.is_premultiplied || dfa.state_count = 0 then
    (dfa, Except.ok ())
  else
    match premultiply_overflow_error maxId (dfa.state_count - 1) dfa.alphabet_len with
    | Except.error e => (dfa, Except.error e)
    | Except.ok _ =>
        ({ dfa with
            trans := dfa.trans.map (fun next => next * dfa.alphabet_len),
            kind := dfa.kind.premultiplied,
            start := dfa.start * dfa.alphabet_len,
            max_match := dfa.max_match * dfa.alphabet_len },
         Except.ok ())

/-- `DFA::to_sized::<T>`, with `T::max_id()` as `maxIdT`.  Computes the
largest stored id, fails if it exceeds `T`'s maximum, and otherwise copies
the DFA narrowing each stored id through `T::from_usize(id.to_usize())`,
which is numerically the identity. -/
def DFA.to_sized (maxIdT : Nat) (dfa : DFA) : Except Error DFA :=
  let last_state_id :=
    if dfa.kind.is_premultiplied then (dfa.state_count - 1) * dfa.alphabet_len
    else dfa.state_count - 1
  if last_state_id > maxIdT then Except.error (Error.StateIDOverflow maxIdT)
  else
    Except.ok
      { dfa with
          start := dfa.start,
          max_match := dfa.max_match,
          trans := dfa.trans.map (fun id => id) }

/-- The caller-chosen endianness of `to_bytes` (`LittleEndian` /
`BigEndian`; `NativeEndian` is one of the two depending on the platform). -/
inductive Endian where
  | little
  | big
deriving DecidableEq, Repr

/-- `byteorder`-style fixed-width write: the `width` bytes of `v`, least
significant first for little endian and most significant first for big
endian (`write_u16` is `writeBytes e 2`, `write_u32` is `writeBytes e 4`,
`write_u64` is `writeBytes e 8`, and the single-byte `buf[i] = id as u8`
is `writeBytes e 1`). -/
def writeBytes (e : Endian) (width v : Nat) : List Nat :=
  match e with
  | .little => (List.range width).map (fun k => v / 256 ^ k % 256)
  | .big => ((List.range width).map (fun k => v / 256 ^ k % 256)).reverse

/-- The 24-byte label `b"rust-regex-automata-dfa\x00"`. -/
def dfaLabel : List Nat :=
  ("rust-regex-automata-dfa".toList.map Char.toNat) ++ [0]

/-- The 256-byte class map written by `to_bytes`: the identity map
`0..=255` when `byte_classes` is empty, else the stored map. -/
def classBytes (dfa : DFA) : List Nat :=
  if dfa.byte_classes.isEmpty then List.range 256 else dfa.byte_classes

/-- The transition-table loop of `to_bytes`: each id written in the declared
width, in table order. -/
def transBytes (e : Endian) (width : Nat) : List Nat → List Nat
  | [] => []
  | id :: rest => writeBytes e width id ++ transBytes e width rest

/-- `DFA::to_bytes::<T>` with the state-id width `mem::size_of::<S>()` as an
explicit `width` parameter.  The source fills a zeroed buffer by advancing
an index over the exact spans below, which is the concatenation; the width
check happens after writing the version and aborts the whole serialization,
so the result is the error in that case. -/
def DFA.to_bytes (e : Endian) (width : Nat) (dfa : DFA) :
    Except Error (List Nat) :=
  if width = 1 ∨ width = 2 ∨ width = 4 ∨ width = 8 then
    Except.ok
      (dfaLabel
        ++ writeBytes e 2 0xFEFF
        ++ writeBytes e 2 1
        ++ writeBytes e 2 width
        ++ writeBytes e 2 dfa.kind.to_byte
        ++ writeBytes e 8 dfa.start
        ++ writeBytes e 8 dfa.state_count
        ++ writeBytes e 8 dfa.max_match
        ++ writeBytes e 8 dfa.alphabet_len
        ++ classBytes dfa
        ++ transBytes e width dfa.trans)
  else
    Except.error (Error.SerializeError
      ("state size of " ++ toString width ++ " not supported, must be 1, 2, 4 or 8"))

/-- The loop of `State::sparse_transitions`, with the enumeration index `i`
made explicit (`b = i as u8` is `i % 256`).  On exhaustion the source pushes
`cur.unwrap()`; `cur` is `none` there only when the row was empty, where the
source would panic, so that branch returns the accumulator unchanged. -/
def sparseGo : Nat → Option (Nat × Nat × Nat) → List (Nat × Nat × Nat) →
    List Nat → List (Nat × Nat × Nat)
  | _, none, ranges, [] => ranges
  | _, some r, ranges, [] => ranges ++ [r]
  | i, cur, ranges, next_id :: rest =>
      let b := i % 256
      match cur with
      | none => sparseGo (i + 1) (some (b, b, next_id)) ranges rest
      | some (prev_start, prev_end, prev_next) =>
          if prev_next = next_id then
            sparseGo (i + 1) (some (prev_start, b, prev_next)) ranges rest
          else
            sparseGo (i + 1) (some (b, b, next_id))
              (ranges ++ [(prev_start, prev_end, prev_next)]) rest

/-- `State::sparse_transitions` on the row's transition slice. -/
def sparse_transitions (transitions : List Nat) : List (Nat × Nat × Nat) :=
  sparseGo 0 none [] transitions

/-- Expansion of coalesced `(byte_lo, byte_hi, next)` triples back into a
dense row: each triple contributes `byte_hi + 1 - byte_lo` copies of
`next`. -/
def expandRanges : List (Nat × Nat × Nat) → List Nat
  | [] => []
  | (lo, hi, next) :: rest => List.replicate (hi + 1 - lo) next ++ expandRanges rest

/-- The row of state `s` in a row-major table with `alpha` columns: the
columns `trans[s*alpha + b]` for `b < alpha`. -/
def rowOf (alpha : Nat) (trans : List Nat) (s : Nat) : List Nat :=
  (List.range alpha).map (fun b => trans.getD (s * alpha + b) 0)

/-- The transposition of two state indices. -/
def transpose (i j s : Nat) : Nat :=
  if s = i then j else if s = j then i else s

/-- The invariant of the main loop of `shuffle_match_states`, entering an
iteration with counters `cur` and `fnm` (= `first_non_match`), table `tbl`
and swap table `swaps`, for a DFA with `n` states, `alpha` columns and
original table `trans0`.  Positions strictly below `fnm` (other than the
dead state) hold rows whose original state was a match state; positions
strictly above `cur` at or above `fnm` hold non-match rows; the strip
`[fnm, cur]` is untouched; `swaps` realizes an involutive permutation whose
action on rows is recorded by the last component. -/
def ShuffleInv (n alpha : Nat) (is_match : List Bool) (trans0 : List Nat)
    (cur fnm : Nat) (tbl swaps : List Nat) : Prop :=
  1 ≤ fnm ∧ fnm ≤ n ∧ cur < n ∧
  swaps.length = n ∧ tbl.length = n * alpha ∧
  (∀ s, fnm ≤ s → s ≤ cur → swaps.getD s 0 = 0) ∧
  (fnm ≤ cur → is_match.getD fnm false = false) ∧
  (∀ s, s < n → permOf swaps s < n) ∧
  (∀ s, s < n → permOf swaps (permOf swaps s) = s) ∧
  (∀ s, 1 ≤ s → s < fnm → is_match.getD (permOf swaps s) false = true) ∧
  (∀ s, cur < s → s < n → fnm ≤ s → is_match.getD (permOf swaps s) false = false) ∧
  (∀ s, s < n → rowOf alpha tbl s = rowOf alpha trans0 (permOf swaps s)) ∧
  swaps.getD 0 0 = 0

/-- What holds of the result `(fnm, tbl, swaps)` of the main loop of
`shuffle_match_states`: the swap table realizes an involutive permutation of
the states fixing the dead state, the rows of `tbl` are the rows of `trans0`
reordered by it, and the match rows are exactly the positions in
`[1, fnm)`. -/
def ShufflePost (n alpha : Nat) (is_match : List Bool) (trans0 : List Nat)
    (r : Nat × List Nat × List Nat) : Prop :=
  1 ≤ r.1 ∧ r.1 ≤ n ∧
  r.2.2.length = n ∧ r.2.1.length = n * alpha ∧
  r.2.2.getD 0 0 = 0 ∧
  (∀ s, s < n → permOf r.2.2 s < n) ∧
  (∀ s, s < n → permOf r.2.2 (permOf r.2.2 s) = s) ∧
  (∀ s, 1 ≤ s → s < r.1 → is_match.getD (permOf r.2.2 s) false = true) ∧
  (∀ s, r.1 ≤ s → s < n → is_match.getD (permOf r.2.2 s) false = false) ∧
  (∀ s, s < n → rowOf alpha r.2.1 s = rowOf alpha trans0 (permOf r.2.2 s))

/-- The specification `shuffle_match_states` is claimed to establish: with
`p` the permutation realized by the swap table, `max_match` becomes
`first_non_match - 1`, the start id and every stored id are rewritten through
the swap table, whole rows are reordered by `p` (an involution fixing the
dead state), and a state id `s` satisfies `s ≠ 0 ∧ s ≤ max_match` exactly
when the row now stored at `s` came from a state whose `is_match` flag was
true. -/
def ShuffleSpec (dfa : DFA) (is_match : List Bool) : Prop :=
  (dfa.shuffle_match_states is_match).max_match = (shuffleResult dfa is_match).1 - 1 ∧
  (dfa.shuffle_match_states is_match).start =
    permOf (shuffleResult dfa is_match).2.2 dfa.start ∧
  permOf (shuffleResult dfa is_match).2.2 0 = 0 ∧
  (∀ s, s < dfa.state_count →
    permOf (shuffleResult dfa is_match).2.2 s < dfa.state_count ∧
    permOf (shuffleResult dfa is_match).2.2
      (permOf (shuffleResult dfa is_match).2.2 s) = s) ∧
  (∀ s, s < dfa.state_count →
    rowOf dfa.alphabet_len (dfa.shuffle_match_states is_match).trans s =
      (rowOf dfa.alphabet_len dfa.trans
        (permOf (shuffleResult dfa is_match).2.2 s)).map
        (permOf (shuffleResult dfa is_match).2.2)) ∧
  (∀ s, s < dfa.state_count →
    ((s ≠ 0 ∧ s ≤ (dfa.shuffle_match_states is_match).max_match) ↔
      is_match.getD (permOf (shuffleResult dfa is_match).2.2 s) false = true))

/-- A two-state unpremultiplied DFA whose `max_match` field holds the stale
value 5 when `shuffle_match_states` is invoked. -/
def dfaLen2 : DFA :=
  { kind := DFAKind.Basic, start := 0, state_count := 2, max_match := 5,
    alphabet_len := 1, byte_classes := [], trans := [0, 0] }

/-- A three-state unpremultiplied DFA used to witness the shuffle
specification (single-column table for brevity). -/
def dfaLen3 : DFA :=
  { kind := DFAKind.Basic, start := 1, state_count := 3, max_match := 0,
    alphabet_len := 1, byte_classes := [], trans := [0, 2, 1] }

/-- The maximum entry of a byte-class map (`max(byte_classes)` of the
spec). -/
def maxClass (l : List Nat) : Nat := l.foldr max 0

/-- A 256-entry class map that is not monotonically non-decreasing: byte 0
maps to class 1 and every other byte to class 0.  Every class in
`[0, byte_classes[255] + 1) = [0, 1)` is assigned, yet the maximum class is
1, not `byte_classes[255]`. -/
def badClasses : List Nat := (List.replicate 256 0).set 0 1

/-- A monotone 256-entry class map with two classes: bytes 0–127 map to
class 0 and bytes 128–255 to class 1. -/
def monoClasses : List Nat := List.replicate 128 0 ++ List.replicate 128 1

/-- Invariant of the `sparse_transitions` fold: after consuming the first
`i` columns, the closed ranges `L` (the pushed ranges together with the
current open range) tile `[0, i)`: `L` is non-empty, starts at byte 0, is
chained with adjacent bounds and distinct neighbouring targets, ends at
`i - 1`, every triple covers only columns equal to its target, and
expanding `L` reproduces the first `i` columns. -/
def SparseInvL (ts : List Nat) (i : Nat) (L : List (Nat × Nat × Nat)) : Prop :=
  L ≠ [] ∧
  (∀ t, L.head? = some t → t.1 = 0) ∧
  (∀ t, L.getLast? = some t → t.2.1 = i - 1) ∧
  (∀ t ∈ L, t.1 ≤ t.2.1 ∧ ∀ b, t.1 ≤ b → b ≤ t.2.1 → ts.getD b 0 = t.2.2) ∧
  List.Chain' (fun t u => u.1 = t.2.1 + 1 ∧ t.2.2 ≠ u.2.2) L ∧
  expandRanges L = ts.take i

/-- The layout C5 claims for a serialized DFA: total length
`320 + state_count * alphabet_len * width`, the 24-byte label, the endian
marker `0xFEFF` and version 1 in the chosen endianness, the width and kind
tags, the four `u64` header fields, the 256-byte class map (identity when
`byte_classes` is empty), and from offset 320 the row-major transition
table with each id in the declared width. -/
def SerializedLayout (e : Endian) (width : Nat) (dfa : DFA)
    (buf : List Nat) : Prop :=
  buf.length = 320 + dfa.state_count * dfa.alphabet_len * width ∧
  buf.take 24 = dfaLabel ∧
  (buf.drop 24).take 2 = writeBytes e 2 0xFEFF ∧
  (buf.drop 26).take 2 = writeBytes e 2 1 ∧
  (buf.drop 28).take 2 = writeBytes e 2 width ∧
  (buf.drop 30).take 2 = writeBytes e 2 dfa.kind.to_byte ∧
  (buf.drop 32).take 8 = writeBytes e 8 dfa.start ∧
  (buf.drop 40).take 8 = writeBytes e 8 dfa.state_count ∧
  (buf.drop 48).take 8 = writeBytes e 8 dfa.max_match ∧
  (buf.drop 56).take 8 = writeBytes e 8 dfa.alphabet_len ∧
  (buf.drop 64).take 256 = classBytes dfa ∧
  buf.drop 320 = transBytes e width dfa.trans

/-! ## Generic list lemmas -/

lemma getD_set (l : List Nat) (i j v : Nat) :
    (l.set i v).getD j 0 = if i = j ∧ i < l.length then v else l.getD j 0 := by
  rw [List.getD_eq_getElem?_getD, List.getD_eq_getElem?_getD, List.getElem?_set]
  by_cases hij : i = j
  · subst hij
    by_cases hi : i < l.length
    · simp [hi]
    · simp [hi, List.getElem?_eq_none (by omega : l.length ≤ i)]
  · simp [hij]

lemma getD_append_left {l₁ : List Nat} (l₂ : List Nat) {i : Nat}
    (h : i < l₁.length) : (l₁ ++ l₂).getD i 0 = l₁.getD i 0 := by
  rw [List.getD_eq_getElem?_getD, List.getD_eq_getElem?_getD,
    List.getElem?_append, if_pos h]

lemma getD_append_right {l₁ : List Nat} (l₂ : List Nat) {i : Nat}
    (h : l₁.length ≤ i) :
    (l₁ ++ l₂).getD i 0 = l₂.getD (i - l₁.length) 0 := by
  rw [List.getD_eq_getElem?_getD, List.getD_eq_getElem?_getD,
    List.getElem?_append, if_neg (by omega)]

lemma getD_replicate (n a i : Nat) :
    (List.replicate n a).getD i 0 = if i < n then a else 0 := by
  rw [List.getD_eq_getElem?_getD, List.getElem?_replicate]
  by_cases h : i < n <;> simp [h]

lemma getD_map_zero (f : Nat → Nat) (hf : f 0 = 0) (l : List Nat) (i : Nat) :
    (l.map f).getD i 0 = f (l.getD i 0) := by
  rw [List.getD_eq_getElem?_getD, List.getD_eq_getElem?_getD, List.getElem?_map]
  cases l[i]? <;> simp [hf]

/-! ## Lemmas about `swapIdx` and `swapRun` -/

lemma swapIdx_length (l : List Nat) (i j : Nat) :
    (swapIdx l i j).length = l.length := by
  simp [swapIdx]

lemma getD_swapIdx (l : List Nat) {i j : Nat} (k : Nat)
    (hi : i < l.length) (hj : j < l.length) :
    (swapIdx l i j).getD k 0 =
      if k = j then l.getD i 0
      else if k = i then l.getD j 0
      else l.getD k 0 := by
  unfold swapIdx
  rw [getD_set, getD_set]
  simp only [List.length_set]
  by_cases hkj : k = j
  · rw [if_pos ⟨hkj.symm, hj⟩, if_pos hkj]
  · rw [if_neg (fun h => hkj h.1.symm), if_neg hkj]
    by_cases hki : k = i
    · rw [if_pos ⟨hki.symm, hi⟩, if_pos hki]
    · rw [if_neg (fun h => hki h.1.symm), if_neg hki]

lemma swapRun_length (o1 o2 m : Nat) (l : List Nat) :
    (swapRun o1 o2 m l).length = l.length := by
  induction m with
  | zero => rfl
  | succ m ih => simp [swapRun, swapIdx_length, ih]

/-- Pointwise description of `swapRun` on disjoint in-range spans. -/
lemma getD_swapRun {o1 o2 : Nat} (m : Nat) {l : List Nat}
    (h1 : o1 + m ≤ l.length) (h2 : o2 + m ≤ l.length)
    (hd : o1 + m ≤ o2 ∨ o2 + m ≤ o1) (k : Nat) :
    (swapRun o1 o2 m l).getD k 0 =
      if o1 ≤ k ∧ k < o1 + m then l.getD (o2 + (k - o1)) 0
      else if o2 ≤ k ∧ k < o2 + m then l.getD (o1 + (k - o2)) 0
      else l.getD k 0 := by
  revert h1 h2 hd
  induction m generalizing k with
  | zero =>
    intro h1 h2 hd
    simp only [swapRun]
    rw [if_neg (by omega : ¬(o1 ≤ k ∧ k < o1 + 0)),
      if_neg (by omega : ¬(o2 ≤ k ∧ k < o2 + 0))]
  | succ m ih =>
    intro h1 h2 hd
    have hm1 : o1 + m ≤ l.length := by omega
    have hm2 : o2 + m ≤ l.length := by omega
    have hdm : o1 + m ≤ o2 ∨ o2 + m ≤ o1 := by omega
    have ih' : ∀ k₀, (swapRun o1 o2 m l).getD k₀ 0 =
        if o1 ≤ k₀ ∧ k₀ < o1 + m then l.getD (o2 + (k₀ - o1)) 0
        else if o2 ≤ k₀ ∧ k₀ < o2 + m then l.getD (o1 + (k₀ - o2)) 0
        else l.getD k₀ 0 := fun k₀ => ih k₀ hm1 hm2 hdm
    simp only [swapRun]
    rw [getD_swapIdx _ k (by rw [swapRun_length]; omega) (by rw [swapRun_length]; omega)]
    by_cases hk2 : k = o2 + m
    · subst hk2
      rw [if_pos rfl, ih' (o1 + m)]
      have c1 : ¬(o1 ≤ o1 + m ∧ o1 + m < o1 + m) := by omega
      have c2 : ¬(o2 ≤ o1 + m ∧ o1 + m < o2 + m) := by omega
      have d1 : ¬(o1 ≤ o2 + m ∧ o2 + m < o1 + (m + 1)) := by omega
      have d2 : o2 ≤ o2 + m ∧ o2 + m < o2 + (m + 1) := by omega
      rw [if_neg c1, if_neg c2, if_neg d1, if_pos d2]
      congr 1
      omega
    · rw [if_neg hk2]
      by_cases hk1 : k = o1 + m
      · subst hk1
        rw [if_pos rfl, ih' (o2 + m)]
        have c1 : ¬(o1 ≤ o2 + m ∧ o2 + m < o1 + m) := by omega
        have c2 : ¬(o2 ≤ o2 + m ∧ o2 + m < o2 + m) := by omega
        have d1 : o1 ≤ o1 + m ∧ o1 + m < o1 + (m + 1) := by omega
        rw [if_neg c1, if_neg c2, if_pos d1]
        congr 1
        omega
      · rw [if_neg hk1, ih' k]
        by_cases e1 : o1 ≤ k ∧ k < o1 + m
        · have e1' : o1 ≤ k ∧ k < o1 + (m + 1) := by omega
          rw [if_pos e1, if_pos e1']
        · by_cases e2 : o2 ≤ k ∧ k < o2 + m
          · have e1' : ¬(o1 ≤ k ∧ k < o1 + (m + 1)) := by omega
            have e2' : o2 ≤ k ∧ k < o2 + (m + 1) := by omega
            rw [if_neg e1, if_pos e2, if_neg e1', if_pos e2']
          · have e1' : ¬(o1 ≤ k ∧ k < o1 + (m + 1)) := by omega
            have e2' : ¬(o2 ≤ k ∧ k < o2 + (m + 1)) := by omega
            rw [if_neg e1, if_neg e2, if_neg e1', if_neg e2']

/-- Swapping the rows of states `i` and `j` permutes the rows of the table by
the transposition of `i` and `j`. -/
lemma rowOf_swapRun {n alpha i j : Nat} {l : List Nat}
    (hlen : l.length = n * alpha) (hi : i < n) (hj : j < n) (hij : i ≠ j)
    (s : Nat) :
    rowOf alpha (swapRun (i * alpha) (j * alpha) alpha l) s =
      rowOf alpha l (transpose i j s) := by
  unfold rowOf
  apply List.map_congr_left
  intro b hb
  rw [List.mem_range] at hb
  have hspan1 : i * alpha + alpha ≤ l.length := by
    rw [hlen]
    calc i * alpha + alpha = (i + 1) * alpha := by ring
    _ ≤ n * alpha := Nat.mul_le_mul_right _ (by omega)
  have hspan2 : j * alpha + alpha ≤ l.length := by
    rw [hlen]
    calc j * alpha + alpha = (j + 1) * alpha := by ring
    _ ≤ n * alpha := Nat.mul_le_mul_right _ (by omega)
  have hdisj : i * alpha + alpha ≤ j * alpha ∨ j * alpha + alpha ≤ i * alpha := by
    rcases Nat.lt_or_ge i j with h | h
    · left
      calc i * alpha + alpha = (i + 1) * alpha := by ring
      _ ≤ j * alpha := Nat.mul_le_mul_right _ (by omega)
    · right
      have : j < i := by omega
      calc j * alpha + alpha = (j + 1) * alpha := by ring
      _ ≤ i * alpha := Nat.mul_le_mul_right _ (by omega)
  rw [getD_swapRun alpha hspan1 hspan2 hdisj]
  unfold transpose
  by_cases hsi : s = i
  · have c1 : i * alpha ≤ s * alpha + b ∧ s * alpha + b < i * alpha + alpha := by
      rw [hsi]
      omega
    rw [if_pos c1, if_pos hsi]
    congr 1
    rw [hsi]
    omega
  · by_cases hsj : s = j
    · have c1 : ¬(i * alpha ≤ s * alpha + b ∧ s * alpha + b < i * alpha + alpha) := by
        rw [hsj]
        omega
      have c2 : j * alpha ≤ s * alpha + b ∧ s * alpha + b < j * alpha + alpha := by
        rw [hsj]
        omega
      rw [if_neg c1, if_pos c2, if_neg hsi, if_pos hsj]
      congr 1
      rw [hsj]
      omega
    · have hsi' : ¬(i * alpha ≤ s * alpha + b ∧ s * alpha + b < i * alpha + alpha) := by
        intro hc
        apply hsi
        have h1 : s * alpha < (i + 1) * alpha := by
          have hb' : s * alpha + b < (i + 1) * alpha := by
            calc s * alpha + b < i * alpha + alpha := hc.2
            _ = (i + 1) * alpha := by ring
          omega
        have h2 : i * alpha < (s + 1) * alpha := by
          have : s * alpha + b < (s + 1) * alpha := by
            have := hb
            calc s * alpha + b < s * alpha + alpha := by omega
            _ = (s + 1) * alpha := by ring
          omega
        have hlt1 : s < i + 1 := lt_of_mul_lt_mul_right h1 (Nat.zero_le alpha)
        have hlt2 : i < s + 1 := lt_of_mul_lt_mul_right h2 (Nat.zero_le alpha)
        omega
      have hsj' : ¬(j * alpha ≤ s * alpha + b ∧ s * alpha + b < j * alpha + alpha) := by
        intro hc
        apply hsj
        have h1 : s * alpha < (j + 1) * alpha := by
          have hb' : s * alpha + b < (j + 1) * alpha := by
            calc s * alpha + b < j * alpha + alpha := hc.2
            _ = (j + 1) * alpha := by ring
          omega
        have h2 : j * alpha < (s + 1) * alpha := by
          have : s * alpha + b < (s + 1) * alpha := by
            calc s * alpha + b < s * alpha + alpha := by omega
            _ = (s + 1) * alpha := by ring
          omega
        have hlt1 : s < j + 1 := lt_of_mul_lt_mul_right h1 (Nat.zero_le alpha)
        have hlt2 : j < s + 1 := lt_of_mul_lt_mul_right h2 (Nat.zero_le alpha)
        omega
      rw [if_neg hsi', if_neg hsj', if_neg hsi, if_neg hsj]

/-! ## Claim C7: `is_match_state` -/

/-- C7: for every DFA and every state id `s`, `is_match_state s` returns true
if and only if `s` is not the dead id 0 and `s ≤ max_match`. -/
theorem is_match_state_iff (dfa : DFA) (s : Nat) :
    dfa.is_match_state s = true ↔ s ≠ 0 ∧ s ≤ dfa.max_match := by
  simp [DFA.is_match_state, dead_id, and_comm]

/-! ## Claim C8: the freshly constructed empty DFA -/

/-- C8: for every state-id representation, `DFA::empty` (and more generally
`empty_with_byte_classes` with an admissible map) produces a DFA with exactly
one state (`state_count = 1`), `start = 0`, every transition equal to the
dead id 0 — yet `max_match` is initialized to 1, so `is_match_state 1`
returns `true` even though the only existing state id is `0`
(`state_count = 1`). -/
theorem empty_max_match_quirk (maxId : Nat) (byte_classes : List Nat)
    (_hbc : byte_classes = [] ∨ byte_classes.length = 256) :
    (DFA.empty maxId).state_count = 1 ∧
    (DFA.empty maxId).start = 0 ∧
    (DFA.empty maxId).trans = List.replicate 256 0 ∧
    (DFA.empty maxId).max_match = 1 ∧
    (DFA.empty maxId).is_match_state 1 = true ∧
    (DFA.empty_with_byte_classes maxId byte_classes).state_count = 1 ∧
    (DFA.empty_with_byte_classes maxId byte_classes).start = 0 ∧
    (DFA.empty_with_byte_classes maxId byte_classes).max_match = 1 ∧
    (DFA.empty_with_byte_classes maxId byte_classes).trans =
      List.replicate (DFA.empty_with_byte_classes maxId byte_classes).alphabet_len 0 ∧
    (DFA.empty_with_byte_classes maxId byte_classes).is_match_state 1 = true := by
  refine ⟨rfl, rfl, rfl, rfl, rfl, ?_, ?_, ?_, ?_, ?_⟩ <;>
    simp [DFA.empty_with_byte_classes, DFA.add_empty_state, DFA.is_match_state,
      dead_id]

/-- Witness for C8 at a concrete representation and map. -/
theorem empty_max_match_quirk_witness :
    (DFA.empty 255).state_count = 1 ∧
    (DFA.empty 255).start = 0 ∧
    (DFA.empty 255).trans = List.replicate 256 0 ∧
    (DFA.empty 255).max_match = 1 ∧
    (DFA.empty 255).is_match_state 1 = true ∧
    (DFA.empty_with_byte_classes 255 []).state_count = 1 ∧
    (DFA.empty_with_byte_classes 255 []).start = 0 ∧
    (DFA.empty_with_byte_classes 255 []).max_match = 1 ∧
    (DFA.empty_with_byte_classes 255 []).trans =
      List.replicate (DFA.empty_with_byte_classes 255 []).alphabet_len 0 ∧
    (DFA.empty_with_byte_classes 255 []).is_match_state 1 = true :=
  empty_max_match_quirk 255 [] (Or.inl rfl)

/-! ## Lemmas about `advance` -/

lemma advanceGo_ge (is_match : List Bool) (bound : Nat) :
    ∀ d fnm, fnm ≤ advanceGo is_match bound d fnm := by
  intro d
  induction d with
  | zero => intro fnm; exact Nat.le_refl _
  | succ d ih =>
    intro fnm
    simp only [advanceGo]
    split
    · exact Nat.le_trans (Nat.le_succ fnm) (ih (fnm + 1))
    · exact Nat.le_refl _

lemma advanceGo_le (is_match : List Bool) (bound : Nat) :
    ∀ d fnm, fnm ≤ bound → advanceGo is_match bound d fnm ≤ bound := by
  intro d
  induction d with
  | zero => intro fnm h; exact h
  | succ d ih =>
    intro fnm h
    simp only [advanceGo]
    split
    · next hc => exact ih (fnm + 1) (by omega)
    · exact h

lemma advanceGo_flags (is_match : List Bool) (bound : Nat) :
    ∀ d fnm p, fnm ≤ p → p < advanceGo is_match bound d fnm →
      is_match.getD p false = true := by
  intro d
  induction d with
  | zero =>
    intro fnm p h1 h2
    simp only [advanceGo] at h2
    omega
  | succ d ih =>
    intro fnm p h1 h2
    simp only [advanceGo] at h2
    by_cases hc : fnm < bound ∧ is_match.getD fnm false = true
    · rw [if_pos hc] at h2
      by_cases hp : p = fnm
      · rw [hp]
        exact hc.2
      · exact ih (fnm + 1) p (by omega) h2
    · rw [if_neg hc] at h2
      omega

lemma advanceGo_stop (is_match : List Bool) (bound : Nat) :
    ∀ d fnm, bound - fnm ≤ d → advanceGo is_match bound d fnm < bound →
      is_match.getD (advanceGo is_match bound d fnm) false = false := by
  intro d
  induction d with
  | zero =>
    intro fnm hd hlt
    simp only [advanceGo] at hlt ⊢
    omega
  | succ d ih =>
    intro fnm hd hlt
    simp only [advanceGo] at hlt ⊢
    by_cases hc : fnm < bound ∧ is_match.getD fnm false = true
    · rw [if_pos hc] at hlt ⊢
      exact ih (fnm + 1) (by omega) hlt
    · rw [if_neg hc] at hlt ⊢
      rcases Bool.eq_false_or_eq_true (is_match.getD fnm false) with hb | hb
      · exact absurd ⟨hlt, hb⟩ hc
      · exact hb

lemma advance_ge (is_match : List Bool) (bound fnm : Nat) :
    fnm ≤ advance is_match bound fnm :=
  advanceGo_ge is_match bound _ fnm

lemma advance_le (is_match : List Bool) {bound fnm : Nat} (h : fnm ≤ bound) :
    advance is_match bound fnm ≤ bound :=
  advanceGo_le is_match bound _ fnm h

lemma advance_flags (is_match : List Bool) (bound fnm : Nat) :
    ∀ p, fnm ≤ p → p < advance is_match bound fnm →
      is_match.getD p false = true :=
  fun p h1 h2 => advanceGo_flags is_match bound _ fnm p h1 h2

lemma advance_stop (is_match : List Bool) (bound fnm : Nat)
    (h : advance is_match bound fnm < bound) :
    is_match.getD (advance is_match bound fnm) false = false :=
  advanceGo_stop is_match bound _ fnm (Nat.le_refl _) h

/-! ## Lemmas about `permOf` and the swap table -/

lemma permOf_of_getD {swaps : List Nat} {s v : Nat}
    (h : swaps.getD s 0 = v) (hv : v ≠ 0) : permOf swaps s = v := by
  unfold permOf
  rw [h, if_pos (show v ≠ dead_id by simpa [dead_id] using hv)]

lemma permOf_of_getD_zero {swaps : List Nat} {s : Nat}
    (h : swaps.getD s 0 = 0) : permOf swaps s = s := by
  unfold permOf
  rw [h]
  simp [dead_id]

lemma getD_set2_other {swaps : List Nat} {a b va vb s : Nat}
    (ha : s ≠ a) (hb : s ≠ b) :
    ((swaps.set a va).set b vb).getD s 0 = swaps.getD s 0 := by
  rw [getD_set, if_neg (fun h => hb h.1.symm), getD_set,
    if_neg (fun h => ha h.1.symm)]

lemma getD_set2_outer {swaps : List Nat} {a b va vb : Nat}
    (hlen : b < swaps.length) :
    ((swaps.set a va).set b vb).getD b 0 = vb := by
  rw [getD_set, if_pos ⟨rfl, by simpa using hlen⟩]

lemma getD_set2_inner {swaps : List Nat} {a b va vb : Nat}
    (hab : b ≠ a) (ha : a < swaps.length) :
    ((swaps.set a va).set b vb).getD a 0 = va := by
  rw [getD_set, if_neg (fun h => hab h.1), getD_set, if_pos ⟨rfl, ha⟩]

/-! ## The shuffle loop invariant -/

/-- A swap iteration of the main loop preserves the invariant. -/
lemma shuffleInv_swap_step {n alpha : Nat} {is_match : List Bool}
    {trans0 : List Nat} {cur fnm : Nat} {tbl swaps : List Nat}
    (hinv : ShuffleInv n alpha is_match trans0 (cur + 1) fnm tbl swaps)
    (hg : fnm < cur + 1) (hm : is_match.getD (cur + 1) false = true) :
    ShuffleInv n alpha is_match trans0 cur
      (advance is_match (cur + 1) (fnm + 1))
      (swapRun ((cur + 1) * alpha) (fnm * alpha) alpha tbl)
      ((swaps.set (cur + 1) fnm).set fnm (cur + 1)) := by
  obtain ⟨h1, h2, h3, h4, h5, hE, hG, hB, hI, hC, hD, hH, h00⟩ := hinv
  have hfn : fnm < n := by omega
  have hga : fnm + 1 ≤ advance is_match (cur + 1) (fnm + 1) :=
    advance_ge _ _ _
  have hla : advance is_match (cur + 1) (fnm + 1) ≤ cur + 1 :=
    advance_le _ (by omega)
  have hs_cur : ((swaps.set (cur + 1) fnm).set fnm (cur + 1)).getD (cur + 1) 0 = fnm :=
    getD_set2_inner (by omega) (by omega)
  have hs_fnm : ((swaps.set (cur + 1) fnm).set fnm (cur + 1)).getD fnm 0 = cur + 1 :=
    getD_set2_outer (by omega)
  have hs_other : ∀ s, s ≠ cur + 1 → s ≠ fnm →
      ((swaps.set (cur + 1) fnm).set fnm (cur + 1)).getD s 0 = swaps.getD s 0 :=
    fun s hsc hsf => getD_set2_other hsc hsf
  have hp_cur : permOf ((swaps.set (cur + 1) fnm).set fnm (cur + 1)) (cur + 1) = fnm :=
    permOf_of_getD hs_cur (by omega)
  have hp_fnm : permOf ((swaps.set (cur + 1) fnm).set fnm (cur + 1)) fnm = cur + 1 :=
    permOf_of_getD hs_fnm (by omega)
  have hp_other : ∀ s, s ≠ cur + 1 → s ≠ fnm →
      permOf ((swaps.set (cur + 1) fnm).set fnm (cur + 1)) s = permOf swaps s := by
    intro s hsc hsf
    unfold permOf
    rw [hs_other s hsc hsf]
  have hperm_cur_old : permOf swaps (cur + 1) = cur + 1 :=
    permOf_of_getD_zero (hE (cur + 1) (by omega) (by omega))
  have hperm_fnm_old : permOf swaps fnm = fnm :=
    permOf_of_getD_zero (hE fnm (Nat.le_refl _) (by omega))
  have hnot_fnm : ∀ s, s < n → s ≠ cur + 1 → s ≠ fnm → permOf swaps s ≠ fnm := by
    intro s hs hsc hsf hcontra
    have hii := hI s hs
    rw [hcontra, hperm_fnm_old] at hii
    exact hsf hii.symm
  have hnot_cur : ∀ s, s < n → s ≠ cur + 1 → s ≠ fnm → permOf swaps s ≠ cur + 1 := by
    intro s hs hsc hsf hcontra
    have hii := hI s hs
    rw [hcontra, hperm_cur_old] at hii
    exact hsc hii.symm
  refine ⟨by omega, by omega, by omega, ?_, ?_, ?_, ?_, ?_, ?_, ?_, ?_, ?_, ?_⟩
  · simp [List.length_set, h4]
  · rw [swapRun_length]
    exact h5
  · intro s hs1 hs2
    rw [hs_other s (by omega) (by omega)]
    exact hE s (by omega) (by omega)
  · intro hle
    exact advance_stop _ _ _ (by omega)
  · intro s hs
    by_cases hsc : s = cur + 1
    · rw [hsc, hp_cur]
      omega
    · by_cases hsf : s = fnm
      · rw [hsf, hp_fnm]
        omega
      · rw [hp_other s hsc hsf]
        exact hB s hs
  · intro s hs
    by_cases hsc : s = cur + 1
    · rw [hsc, hp_cur, hp_fnm]
    · by_cases hsf : s = fnm
      · rw [hsf, hp_fnm, hp_cur]
      · rw [hp_other s hsc hsf,
          hp_other _ (hnot_cur s hs hsc hsf) (hnot_fnm s hs hsc hsf)]
        exact hI s hs
  · intro s hs1 hs2
    by_cases hsf : s = fnm
    · rw [hsf, hp_fnm]
      exact hm
    · have hsc : s ≠ cur + 1 := by omega
      rw [hp_other s hsc hsf]
      by_cases hlt : s < fnm
      · exact hC s hs1 hlt
      · have hsw : swaps.getD s 0 = 0 := hE s (by omega) (by omega)
        rw [permOf_of_getD_zero hsw]
        exact advance_flags is_match (cur + 1) (fnm + 1) s (by omega) hs2
  · intro s hs1 hs2 hs3
    by_cases hsc : s = cur + 1
    · rw [hsc, hp_cur]
      exact hG (by omega)
    · have hsf : s ≠ fnm := by omega
      rw [hp_other s hsc hsf]
      exact hD s (by omega) hs2 (by omega)
  · intro s hs
    rw [rowOf_swapRun h5 h3 hfn (by omega) s]
    unfold transpose
    by_cases hsc : s = cur + 1
    · rw [if_pos hsc, hsc, hp_cur, hH fnm hfn, hperm_fnm_old]
    · rw [if_neg hsc]
      by_cases hsf : s = fnm
      · rw [if_pos hsf, hsf, hp_fnm, hH (cur + 1) h3, hperm_cur_old]
      · rw [if_neg hsf, hp_other s hsc hsf]
        exact hH s hs
  · rw [hs_other 0 (by omega) (by omega)]
    exact h00

/-- A non-swap iteration of the main loop preserves the invariant. -/
lemma shuffleInv_noswap_step {n alpha : Nat} {is_match : List Bool}
    {trans0 : List Nat} {cur fnm : Nat} {tbl swaps : List Nat}
    (hinv : ShuffleInv n alpha is_match trans0 (cur + 1) fnm tbl swaps)
    (hg : fnm < cur + 1) (hm : is_match.getD (cur + 1) false = false) :
    ShuffleInv n alpha is_match trans0 cur fnm tbl swaps := by
  obtain ⟨h1, h2, h3, h4, h5, hE, hG, hB, hI, hC, hD, hH, h00⟩ := hinv
  refine ⟨h1, h2, by omega, h4, h5, ?_, ?_, hB, hI, hC, ?_, hH, h00⟩
  · intro s hs1 hs2
    exact hE s hs1 (by omega)
  · intro hle
    exact hG (by omega)
  · intro s hs1 hs2 hs3
    by_cases hsc : s = cur + 1
    · rw [hsc, permOf_of_getD_zero (hE (cur + 1) (by omega) (by omega))]
      exact hm
    · exact hD s (by omega) hs2 hs3

/-- At loop exit (`cur ≤ first_non_match`, since the guard
`cur > first_non_match` failed) the invariant yields the postcondition. -/
lemma shuffleInv_exit {n alpha : Nat} {is_match : List Bool}
    {trans0 : List Nat} {cur fnm : Nat} {tbl swaps : List Nat}
    (hinv : ShuffleInv n alpha is_match trans0 cur fnm tbl swaps)
    (hle : cur ≤ fnm) :
    ShufflePost n alpha is_match trans0 (fnm, tbl, swaps) := by
  obtain ⟨h1, h2, h3, h4, h5, hE, hG, hB, hI, hC, hD, hH, h00⟩ := hinv
  refine ⟨h1, h2, h4, h5, h00, hB, hI, hC, ?_, hH⟩
  intro s hs1 hs2
  by_cases hsc : cur < s
  · exact hD s hsc hs2 hs1
  · have hsf : s = fnm := by omega
    have hsw : swaps.getD s 0 = 0 := hE s hs1 (by omega)
    rw [permOf_of_getD_zero hsw, hsf]
    exact hG (by omega)

/-- The main loop establishes the postcondition from the invariant. -/
lemma shuffleLoop_post {n alpha : Nat} {is_match : List Bool}
    {trans0 : List Nat} :
    ∀ (cur fnm : Nat) (tbl swaps : List Nat),
      ShuffleInv n alpha is_match trans0 cur fnm tbl swaps →
      ShufflePost n alpha is_match trans0
        (shuffleLoop alpha is_match cur fnm tbl swaps) := by
  intro cur
  induction cur with
  | zero =>
    intro fnm tbl swaps hinv
    exact shuffleInv_exit hinv (Nat.zero_le fnm)
  | succ cur ih =>
    intro fnm tbl swaps hinv
    simp only [shuffleLoop]
    by_cases hg : fnm < cur + 1
    · rw [if_pos hg]
      by_cases hm : is_match.getD (cur + 1) false = true
      · rw [if_pos hm]
        exact ih _ _ _ (shuffleInv_swap_step hinv hg hm)
      · rw [if_neg hm]
        have hm' : is_match.getD (cur + 1) false = false := by
          rcases Bool.eq_false_or_eq_true (is_match.getD (cur + 1) false) with hb | hb
          · exact absurd hb hm
          · exact hb
        exact ih _ _ _ (shuffleInv_noswap_step hinv hg hm')
    · rw [if_neg hg]
      exact shuffleInv_exit hinv (by omega)

/-- The invariant holds on entry to the main loop. -/
lemma shuffleInv_init {n alpha : Nat} {is_match : List Bool}
    {trans0 : List Nat} (hn : 1 ≤ n) (hlen : trans0.length = n * alpha) :
    ShuffleInv n alpha is_match trans0 (n - 1) (advance is_match n 1) trans0
      (List.replicate n 0) := by
  have hga : 1 ≤ advance is_match n 1 := advance_ge _ _ _
  have hla : advance is_match n 1 ≤ n := advance_le _ hn
  have hz : ∀ s, (List.replicate n (0 : Nat)).getD s 0 = 0 := by
    intro s
    rw [getD_replicate]
    split <;> rfl
  have hid : ∀ s, permOf (List.replicate n 0) s = s :=
    fun s => permOf_of_getD_zero (hz s)
  refine ⟨hga, hla, by omega, by simp, hlen, ?_, ?_, ?_, ?_, ?_, ?_, ?_, hz 0⟩
  · intro s _ _
    exact hz s
  · intro hle
    exact advance_stop _ _ _ (by omega)
  · intro s hs
    rw [hid s]
    exact hs
  · intro s hs
    rw [hid s, hid s]
  · intro s hs1 hs2
    rw [hid s]
    exact advance_flags _ _ _ s hs1 hs2
  · intro s hs1 hs2 hs3
    exact absurd hs2 (by omega)
  · intro s hs
    rw [hid s]

/-! ## Claim C1 (amended): `shuffle_match_states` for `state_count ≥ 3` -/

/-- C1 (amended to `state_count ≥ 3`; for `state_count ≤ 2` the code returns
immediately, see `shuffle_small_counterexample`): for every unpremultiplied
DFA with at least three states, every boolean array `is_match` of length
`state_count` with `is_match[0] = false`, and a well-formed table,
`shuffle_match_states` reorders whole rows by the involutive permutation
recorded in the swap table, rewrites every stored id and the start id
through the swap table, sets `max_match = first_non_match - 1`, and a state
id `s < state_count` satisfies `s ≠ 0 ∧ s ≤ max_match` iff the row now
stored at `s` came from a state whose `is_match` flag was true. -/
theorem shuffle_match_states_spec (dfa : DFA) (is_match : List Bool)
    (_hk : dfa.kind.is_premultiplied = false)
    (hn : 3 ≤ dfa.state_count)
    (_hlen : is_match.length = dfa.state_count)
    (h0 : is_match.getD 0 false = false)
    (hwf : dfa.trans.length = dfa.state_count * dfa.alphabet_len) :
    ShuffleSpec dfa is_match := by
  have hpost : ShufflePost dfa.state_count dfa.alphabet_len is_match dfa.trans
      (shuffleResult dfa is_match) := by
    unfold shuffleResult
    apply shuffleLoop_post
    have hini := @shuffleInv_init dfa.state_count dfa.alphabet_len is_match
      dfa.trans (by omega) hwf
    simpa [dead_id] using hini
  obtain ⟨hp1, hp2, hp3, hp4, hp5, hpB, hpI, hpC, hpD, hpH⟩ := hpost
  have hsh : dfa.shuffle_match_states is_match =
      { dfa with
          trans := remapTable (shuffleResult dfa is_match).2.2
            (shuffleResult dfa is_match).2.1,
          start := permOf (shuffleResult dfa is_match).2.2 dfa.start,
          max_match := (shuffleResult dfa is_match).1 - 1 } := by
    rw [DFA.shuffle_match_states, if_neg (by omega)]
  have hperm0 : permOf (shuffleResult dfa is_match).2.2 0 = 0 :=
    permOf_of_getD_zero hp5
  refine ⟨?_, ?_, hperm0, ?_, ?_, ?_⟩
  · rw [hsh]
  · rw [hsh]
  · intro s hs
    exact ⟨hpB s hs, hpI s hs⟩
  · intro s hs
    rw [hsh]
    have hmap : rowOf dfa.alphabet_len
        (remapTable (shuffleResult dfa is_match).2.2
          (shuffleResult dfa is_match).2.1) s =
        (rowOf dfa.alphabet_len (shuffleResult dfa is_match).2.1 s).map
          (permOf (shuffleResult dfa is_match).2.2) := by
      unfold remapTable rowOf
      rw [List.map_map]
      apply List.map_congr_left
      intro b _
      exact getD_map_zero _ hperm0 _ _
    rw [hmap, hpH s hs]
  · intro s hs
    have hmm_eq : (dfa.shuffle_match_states is_match).max_match =
        (shuffleResult dfa is_match).1 - 1 := by
      rw [hsh]
    rw [hmm_eq]
    constructor
    · rintro ⟨hs0, hsle⟩
      exact hpC s (by omega) (by omega)
    · intro hflag
      constructor
      · rintro rfl
        rw [hperm0, h0] at hflag
        exact Bool.false_ne_true hflag
      · by_contra hgt
        have hge : (shuffleResult dfa is_match).1 ≤ s := by omega
        rw [hpD s hge hs] at hflag
        exact Bool.false_ne_true hflag

/-- Witness for the amended C1 at a concrete three-state DFA: state 2 is the
only match state; its row is swapped into position 1. -/
theorem shuffle_match_states_spec_witness :
    ShuffleSpec dfaLen3 [false, false, true] :=
  shuffle_match_states_spec dfaLen3 [false, false, true]
    (by decide) (by decide) (by decide) (by decide) (by decide)

/-- Counterexample to C1 as stated: on the two-state DFA `dfaLen2` with
stale `max_match = 5` and no match states, `shuffle_match_states` returns
without touching any field (the code exits early for `state_count ≤ 2`), so
`max_match` remains 5 even though the spec's algorithm would set it to
`first_non_match - 1 = 0`; consequently `is_match_state 1` is true although
the (unmoved) row at state 1 belongs to a state whose `is_match` flag is
false. -/
theorem shuffle_small_counterexample :
    DFA.shuffle_match_states dfaLen2 [false, false] = dfaLen2 ∧
    (DFA.shuffle_match_states dfaLen2 [false, false]).max_match = 5 ∧
    advance [false, false] dfaLen2.state_count 1 - 1 = 0 ∧
    (DFA.shuffle_match_states dfaLen2 [false, false]).is_match_state 1 = true ∧
    [false, false].getD 1 false = false := by
  refine ⟨?_, ?_, ?_, ?_, rfl⟩ <;> decide

/-! ## Claims C3 and C9: `premultiply` -/

lemma DFAKind.premultiplied_is_premultiplied (k : DFAKind) :
    k.premultiplied.is_premultiplied = true := by
  cases k <;> rfl

/-- Evaluation of `premultiply` when the early return does not fire. -/
lemma premultiply_eq_of_not {maxId : Nat} {dfa : DFA}
    (hk : dfa.kind.is_premultiplied = false) (hn : dfa.state_count ≠ 0) :
    dfa.premultiply maxId =
      if (dfa.state_count - 1) * dfa.alphabet_len > maxId then
        (dfa, Except.error Error.PremultiplyOverflow)
      else
        ({ dfa with
            trans := dfa.trans.map (fun next => next * dfa.alphabet_len),
            kind := dfa.kind.premultiplied,
            start := dfa.start * dfa.alphabet_len,
            max_match := dfa.max_match * dfa.alphabet_len },
         Except.ok ()) := by
  unfold DFA.premultiply premultiply_overflow_error
  rw [if_neg (by simp [hk]; omega)]
  by_cases hov : (dfa.state_count - 1) * dfa.alphabet_len > maxId
  · rw [if_pos hov, if_pos hov]
  · rw [if_neg hov, if_neg hov]

/-- C3: for every DFA whose kind is not premultiplied and with
`state_count ≥ 1`: if `(state_count - 1) * alphabet_len` does not exceed the
id type's maximum, `premultiply` returns `Ok` and every transition, the start
id and `max_match` are multiplied by `alphabet_len` while the kind becomes
the corresponding premultiplied variant (`Basic → Premultiplied`,
`ByteClass → PremultipliedByteClass`); otherwise it returns
`PremultiplyOverflow` and the DFA is unchanged, the check preceding any
mutation. -/
theorem premultiply_spec (maxId : Nat) (dfa : DFA)
    (hk : dfa.kind.is_premultiplied = false)
    (hn : 1 ≤ dfa.state_count) :
    ((dfa.state_count - 1) * dfa.alphabet_len ≤ maxId →
      dfa.premultiply maxId =
        ({ dfa with
            trans := dfa.trans.map (fun next => next * dfa.alphabet_len),
            kind := dfa.kind.premultiplied,
            start := dfa.start * dfa.alphabet_len,
            max_match := dfa.max_match * dfa.alphabet_len },
         Except.ok ())) ∧
    (maxId < (dfa.state_count - 1) * dfa.alphabet_len →
      dfa.premultiply maxId = (dfa, Except.error Error.PremultiplyOverflow)) ∧
    DFAKind.Basic.premultiplied = DFAKind.Premultiplied ∧
    DFAKind.ByteClass.premultiplied = DFAKind.PremultipliedByteClass := by
  refine ⟨?_, ?_, rfl, rfl⟩
  · intro hle
    rw [premultiply_eq_of_not hk (by omega), if_neg (by omega)]
  · intro hgt
    rw [premultiply_eq_of_not hk (by omega), if_pos (by omega)]

/-- Witness for C3 on a small byte-class DFA, in both the success and the
overflow regime. -/
theorem premultiply_spec_witness :
    (((3 - 1) * 1 ≤ 255 →
      dfaLen3.premultiply 255 =
        ({ dfaLen3 with
            trans := dfaLen3.trans.map (fun next => next * dfaLen3.alphabet_len),
            kind := dfaLen3.kind.premultiplied,
            start := dfaLen3.start * dfaLen3.alphabet_len,
            max_match := dfaLen3.max_match * dfaLen3.alphabet_len },
         Except.ok ())) ∧
    (255 < (3 - 1) * 1 →
      dfaLen3.premultiply 255 = (dfaLen3, Except.error Error.PremultiplyOverflow)) ∧
    DFAKind.Basic.premultiplied = DFAKind.Premultiplied ∧
    DFAKind.ByteClass.premultiplied = DFAKind.PremultipliedByteClass) ∧
    ((3 - 1) * 1 ≤ 1 →
      dfaLen3.premultiply 1 =
        ({ dfaLen3 with
            trans := dfaLen3.trans.map (fun next => next * dfaLen3.alphabet_len),
            kind := dfaLen3.kind.premultiplied,
            start := dfaLen3.start * dfaLen3.alphabet_len,
            max_match := dfaLen3.max_match * dfaLen3.alphabet_len },
         Except.ok ())) ∧
    (1 < (3 - 1) * 1 →
      dfaLen3.premultiply 1 = (dfaLen3, Except.error Error.PremultiplyOverflow)) :=
  ⟨premultiply_spec 255 dfaLen3 (by decide) (by decide),
   (premultiply_spec 1 dfaLen3 (by decide) (by decide)).1,
   (premultiply_spec 1 dfaLen3 (by decide) (by decide)).2.1⟩

/-- C9: `premultiply` is idempotent at the interface.  On an
already-premultiplied or empty DFA it returns `Ok(())` and changes nothing;
and whenever a first call succeeds, a second call returns `Ok(())` and
leaves the result of the first call unchanged. -/
theorem premultiply_idempotent (maxId : Nat) (dfa : DFA) :
    ((dfa.kind.is_premultiplied = true ∨ dfa.state_count = 0) →
      dfa.premultiply maxId = (dfa, Except.ok ())) ∧
    ((dfa.premultiply maxId).2 = Except.ok () →
      (dfa.premultiply maxId).1.premultiply maxId =
        ((dfa.premultiply maxId).1, Except.ok ())) := by
  have htriv : ∀ d : DFA, (d.kind.is_premultiplied = true ∨ d.state_count = 0) →
      d.premultiply maxId = (d, Except.ok ()) := by
    intro d hd
    unfold DFA.premultiply
    rcases hd with hd | hd
    · rw [if_pos (by simp [hd])]
    · rw [if_pos (by simp [hd])]
  refine ⟨htriv dfa, ?_⟩
  intro hok
  by_cases hpre : dfa.kind.is_premultiplied = true
  · rw [htriv dfa (Or.inl hpre)]
    exact htriv dfa (Or.inl hpre)
  · by_cases hzero : dfa.state_count = 0
    · rw [htriv dfa (Or.inr hzero)]
      exact htriv dfa (Or.inr hzero)
    · have hk : dfa.kind.is_premultiplied = false := by
        simpa using hpre
      rw [premultiply_eq_of_not hk hzero] at hok ⊢
      by_cases hov : (dfa.state_count - 1) * dfa.alphabet_len > maxId
      · rw [if_pos hov] at hok
        exact absurd hok (by simp)
      · rw [if_neg hov]
        apply htriv
        left
        exact DFAKind.premultiplied_is_premultiplied dfa.kind

/-- Witness for C9 at a concrete DFA: a successful premultiplication
followed by a second call which is the identity. -/
theorem premultiply_idempotent_witness :
    ((dfaLen3.kind.is_premultiplied = true ∨ dfaLen3.state_count = 0) →
      dfaLen3.premultiply 255 = (dfaLen3, Except.ok ())) ∧
    ((dfaLen3.premultiply 255).2 = Except.ok () →
      (dfaLen3.premultiply 255).1.premultiply 255 =
        ((dfaLen3.premultiply 255).1, Except.ok ())) :=
  premultiply_idempotent 255 dfaLen3

/-! ## Claim C4: `to_sized` -/

/-- C4: `to_sized::<T>` fails with `StateIDOverflow(T::max_id())` exactly
when the largest stored id — `state_count - 1` unpremultiplied,
`(state_count - 1) * alphabet_len` premultiplied — exceeds `T`'s maximum;
otherwise it returns a DFA with the same kind, counts, classes and
numerically identical ids (the original is a pure value and is never
modified). -/
theorem to_sized_spec (maxIdT : Nat) (dfa : DFA)
    (_hn : 1 ≤ dfa.state_count) :
    ((if dfa.kind.is_premultiplied = true then
        (dfa.state_count - 1) * dfa.alphabet_len
      else dfa.state_count - 1) > maxIdT →
      dfa.to_sized maxIdT = Except.error (Error.StateIDOverflow maxIdT)) ∧
    ((if dfa.kind.is_premultiplied = true then
        (dfa.state_count - 1) * dfa.alphabet_len
      else dfa.state_count - 1) ≤ maxIdT →
      dfa.to_sized maxIdT = Except.ok dfa) := by
  unfold DFA.to_sized
  constructor
  · intro hgt
    rw [if_pos (by simpa using hgt)]
  · intro hle
    rw [if_neg (by simpa using hle)]
    simp

/-- Witness for C4 on `dfaLen3` (largest id 2): narrowing to a maximum of 2
succeeds and to a maximum of 1 fails. -/
theorem to_sized_spec_witness :
    (((if dfaLen3.kind.is_premultiplied = true then
        (dfaLen3.state_count - 1) * dfaLen3.alphabet_len
      else dfaLen3.state_count - 1) > 1 →
      dfaLen3.to_sized 1 = Except.error (Error.StateIDOverflow 1)) ∧
    ((if dfaLen3.kind.is_premultiplied = true then
        (dfaLen3.state_count - 1) * dfaLen3.alphabet_len
      else dfaLen3.state_count - 1) ≤ 1 →
      dfaLen3.to_sized 1 = Except.ok dfaLen3)) ∧
    ((if dfaLen3.kind.is_premultiplied = true then
        (dfaLen3.state_count - 1) * dfaLen3.alphabet_len
      else dfaLen3.state_count - 1) ≤ 2 →
      dfaLen3.to_sized 2 = Except.ok dfaLen3) :=
  ⟨to_sized_spec 1 dfaLen3 (by decide),
   (to_sized_spec 2 dfaLen3 (by decide)).2⟩

/-! ## Claim C6: `add_empty_state` -/

/-- C6: `add_empty_state` fails with `StateIDOverflow` exactly when the id
of the would-be new state (the current `state_count`) would exceed the
representation's maximum, leaving the DFA unchanged; on success it returns
`state_count` as the new id, appends `alphabet_len` dead transitions,
increments `state_count`, and leaves every pre-existing transition, the
start id and `max_match` unchanged. -/
theorem add_empty_state_spec (maxId : Nat) (dfa : DFA) :
    (dfa.state_count ≤ maxId →
      dfa.add_empty_state maxId =
        ({ dfa with
            trans := dfa.trans ++ List.replicate dfa.alphabet_len 0,
            state_count := dfa.state_count + 1 },
         Except.ok dfa.state_count)) ∧
    (maxId < dfa.state_count →
      dfa.add_empty_state maxId = (dfa, Except.error (Error.StateIDOverflow maxId))) ∧
    (dfa.add_empty_state maxId).1.start = dfa.start ∧
    (dfa.add_empty_state maxId).1.max_match = dfa.max_match ∧
    (∀ i, i < dfa.trans.length →
      (dfa.add_empty_state maxId).1.trans.getD i 0 = dfa.trans.getD i 0) := by
  have h1 : dfa.state_count ≤ maxId →
      dfa.add_empty_state maxId =
        ({ dfa with
            trans := dfa.trans ++ List.replicate dfa.alphabet_len 0,
            state_count := dfa.state_count + 1 },
         Except.ok dfa.state_count) := by
    intro hle
    unfold DFA.add_empty_state next_state_id
    by_cases hz : dfa.state_count = 0
    · rw [if_pos hz]
      simp [hz, dead_id]
    · rw [if_neg hz, if_neg (by omega : ¬dfa.state_count - 1 + 1 > maxId)]
      have hsc : dfa.state_count - 1 + 1 = dfa.state_count := by omega
      simp [hsc, dead_id]
  have h2 : maxId < dfa.state_count →
      dfa.add_empty_state maxId = (dfa, Except.error (Error.StateIDOverflow maxId)) := by
    intro hgt
    unfold DFA.add_empty_state next_state_id
    rw [if_neg (by omega : ¬dfa.state_count = 0),
      if_pos (by omega : dfa.state_count - 1 + 1 > maxId)]
  refine ⟨h1, h2, ?_, ?_, ?_⟩
  · by_cases hle : dfa.state_count ≤ maxId
    · rw [h1 hle]
    · rw [h2 (by omega)]
  · by_cases hle : dfa.state_count ≤ maxId
    · rw [h1 hle]
    · rw [h2 (by omega)]
  · intro i hi
    by_cases hle : dfa.state_count ≤ maxId
    · rw [h1 hle]
      exact getD_append_left _ hi
    · rw [h2 (by omega)]

/-- Witness for C6: adding a state to `dfaLen3` with room (max id 255) and
without room (max id 2). -/
theorem add_empty_state_spec_witness :
    ((dfaLen3.state_count ≤ 255 →
      dfaLen3.add_empty_state 255 =
        ({ dfaLen3 with
            trans := dfaLen3.trans ++ List.replicate dfaLen3.alphabet_len 0,
            state_count := dfaLen3.state_count + 1 },
         Except.ok dfaLen3.state_count)) ∧
    (255 < dfaLen3.state_count →
      dfaLen3.add_empty_state 255 = (dfaLen3, Except.error (Error.StateIDOverflow 255))) ∧
    (dfaLen3.add_empty_state 255).1.start = dfaLen3.start ∧
    (dfaLen3.add_empty_state 255).1.max_match = dfaLen3.max_match ∧
    (∀ i, i < dfaLen3.trans.length →
      (dfaLen3.add_empty_state 255).1.trans.getD i 0 = dfaLen3.trans.getD i 0)) ∧
    (2 < dfaLen3.state_count →
      dfaLen3.add_empty_state 2 = (dfaLen3, Except.error (Error.StateIDOverflow 2))) :=
  ⟨add_empty_state_spec 255 dfaLen3, (add_empty_state_spec 2 dfaLen3).2.1⟩

/-! ## Claim C2: byte classes and `alphabet_len` -/

lemma le_maxClass {l : List Nat} : ∀ x ∈ l, x ≤ maxClass l := by
  induction l with
  | nil => intro x hx; cases hx
  | cons a l ih =>
    intro x hx
    rcases List.mem_cons.mp hx with hx | hx
    · rw [hx]
      exact Nat.le_max_left _ _
    · exact Nat.le_trans (ih x hx) (Nat.le_max_right _ _)

lemma maxClass_le {l : List Nat} {m : Nat} (h : ∀ x ∈ l, x ≤ m) :
    maxClass l ≤ m := by
  induction l with
  | nil => exact Nat.zero_le m
  | cons a l ih =>
    unfold maxClass
    simp only [List.foldr_cons]
    exact Nat.max_le.mpr ⟨h a (List.mem_cons_self a l),
      ih (fun x hx => h x (List.mem_cons_of_mem a hx))⟩

lemma getD_mem {l : List Nat} {i : Nat} (h : i < l.length) :
    l.getD i 0 ∈ l := by
  rw [List.getD_eq_getElem?_getD, List.getElem?_eq_getElem h]
  exact List.getElem_mem h

/-- C2 (amended): for a DFA constructed with a full 256-entry class map —
monotone or not — `alphabet_len = byte_classes[255] + 1` always holds and
`byte_classes` is stored unchanged, while `max(byte_classes) + 1 =
alphabet_len` holds under the additional hypothesis that byte 255 carries
the maximum class (which monotone maps guarantee; a non-monotone map with
every class assigned can violate it, see
`byte_class_max_counterexample`); a DFA built with an empty map keeps
`byte_classes` empty and `alphabet_len = 256`; and none of
`add_empty_state`, `set_transition`, `swap_states`, `truncate_states`,
`shuffle_match_states`, `premultiply`, `to_sized` ever changes
`byte_classes` or `alphabet_len`. -/
theorem byte_class_invariants (maxId maxIdT : Nat) (bc : List Nat)
    (hbc : bc.length = 256) (dfa : DFA) :
    (DFA.empty_with_byte_classes maxId bc).alphabet_len = bc.getD 255 0 + 1 ∧
    ((∀ c ∈ bc, c ≤ bc.getD 255 0) →
      (DFA.empty_with_byte_classes maxId bc).alphabet_len = maxClass bc + 1) ∧
    (DFA.empty_with_byte_classes maxId bc).byte_classes = bc ∧
    (DFA.empty_with_byte_classes maxId []).byte_classes = [] ∧
    (DFA.empty_with_byte_classes maxId []).alphabet_len = 256 ∧
    ((dfa.add_empty_state maxId).1.byte_classes = dfa.byte_classes ∧
      (dfa.add_empty_state maxId).1.alphabet_len = dfa.alphabet_len) ∧
    (∀ f b t, (dfa.set_transition f b t).byte_classes = dfa.byte_classes ∧
      (dfa.set_transition f b t).alphabet_len = dfa.alphabet_len) ∧
    (∀ i j, (dfa.swap_states i j).byte_classes = dfa.byte_classes ∧
      (dfa.swap_states i j).alphabet_len = dfa.alphabet_len) ∧
    (∀ c, (dfa.truncate_states c).byte_classes = dfa.byte_classes ∧
      (dfa.truncate_states c).alphabet_len = dfa.alphabet_len) ∧
    (∀ im, (dfa.shuffle_match_states im).byte_classes = dfa.byte_classes ∧
      (dfa.shuffle_match_states im).alphabet_len = dfa.alphabet_len) ∧
    ((dfa.premultiply maxId).1.byte_classes = dfa.byte_classes ∧
      (dfa.premultiply maxId).1.alphabet_len = dfa.alphabet_len) ∧
    (∀ d2, dfa.to_sized maxIdT = Except.ok d2 →
      d2.byte_classes = dfa.byte_classes ∧ d2.alphabet_len = dfa.alphabet_len) := by
  have hne : ¬bc.isEmpty = true := by
    cases bc
    · simp at hbc
    · simp
  have halpha : (DFA.empty_with_byte_classes maxId bc).alphabet_len =
      bc.getD 255 0 + 1 := by
    simp [DFA.empty_with_byte_classes, DFA.add_empty_state, hne]
  have hmax : (∀ c ∈ bc, c ≤ bc.getD 255 0) →
      (DFA.empty_with_byte_classes maxId bc).alphabet_len = maxClass bc + 1 := by
    intro hmono
    rw [halpha,
      Nat.le_antisymm (maxClass_le hmono) (le_maxClass _ (getD_mem (by omega)))]
  refine ⟨halpha, hmax, ?_, ?_, ?_, ?_, ?_, ?_, ?_, ?_, ?_, ?_⟩
  · simp [DFA.empty_with_byte_classes, DFA.add_empty_state, hne]
  · rfl
  · rfl
  · unfold DFA.add_empty_state
    split <;> exact ⟨rfl, rfl⟩
  · intro f b t
    exact ⟨rfl, rfl⟩
  · intro i j
    exact ⟨rfl, rfl⟩
  · intro c
    exact ⟨rfl, rfl⟩
  · intro im
    unfold DFA.shuffle_match_states
    split <;> exact ⟨rfl, rfl⟩
  · unfold DFA.premultiply
    split
    · exact ⟨rfl, rfl⟩
    · split <;> exact ⟨rfl, rfl⟩
  · intro d2 h
    by_cases hov : (if dfa.kind.is_premultiplied = true then
        (dfa.state_count - 1) * dfa.alphabet_len
      else dfa.state_count - 1) > maxIdT
    · unfold DFA.to_sized at h
      rw [if_pos (by simpa using hov)] at h
      cases h
    · unfold DFA.to_sized at h
      rw [if_neg (by simpa using hov)] at h
      cases h
      exact ⟨rfl, rfl⟩

/-- Witness for the amended C2 at a concrete monotone two-class map and the
DFA `dfaLen3`, plus the unconditional `byte_classes[255] + 1` conjunct
exercised at the non-monotone map `badClasses`. -/
theorem byte_class_invariants_witness :
    ((DFA.empty_with_byte_classes 0 monoClasses).alphabet_len =
      monoClasses.getD 255 0 + 1 ∧
    ((∀ c ∈ monoClasses, c ≤ monoClasses.getD 255 0) →
      (DFA.empty_with_byte_classes 0 monoClasses).alphabet_len =
        maxClass monoClasses + 1) ∧
    (DFA.empty_with_byte_classes 0 monoClasses).byte_classes = monoClasses ∧
    (DFA.empty_with_byte_classes 0 []).byte_classes = [] ∧
    (DFA.empty_with_byte_classes 0 []).alphabet_len = 256 ∧
    ((dfaLen3.add_empty_state 0).1.byte_classes = dfaLen3.byte_classes ∧
      (dfaLen3.add_empty_state 0).1.alphabet_len = dfaLen3.alphabet_len) ∧
    (∀ f b t, (dfaLen3.set_transition f b t).byte_classes = dfaLen3.byte_classes ∧
      (dfaLen3.set_transition f b t).alphabet_len = dfaLen3.alphabet_len) ∧
    (∀ i j, (dfaLen3.swap_states i j).byte_classes = dfaLen3.byte_classes ∧
      (dfaLen3.swap_states i j).alphabet_len = dfaLen3.alphabet_len) ∧
    (∀ c, (dfaLen3.truncate_states c).byte_classes = dfaLen3.byte_classes ∧
      (dfaLen3.truncate_states c).alphabet_len = dfaLen3.alphabet_len) ∧
    (∀ im, (dfaLen3.shuffle_match_states im).byte_classes = dfaLen3.byte_classes ∧
      (dfaLen3.shuffle_match_states im).alphabet_len = dfaLen3.alphabet_len) ∧
    ((dfaLen3.premultiply 0).1.byte_classes = dfaLen3.byte_classes ∧
      (dfaLen3.premultiply 0).1.alphabet_len = dfaLen3.alphabet_len) ∧
    (∀ d2, dfaLen3.to_sized 2 = Except.ok d2 →
      d2.byte_classes = dfaLen3.byte_classes ∧
      d2.alphabet_len = dfaLen3.alphabet_len)) ∧
    (DFA.empty_with_byte_classes 0 badClasses).alphabet_len =
      badClasses.getD 255 0 + 1 :=
  ⟨byte_class_invariants 0 2 monoClasses (by decide) dfaLen3,
   (byte_class_invariants 0 2 badClasses (by decide) dfaLen3).1⟩

/-- Counterexample to C2 as stated: the non-monotone 256-entry map
`badClasses` assigns every class in `[0, alphabet_len)` to at least one
byte, yet `max(byte_classes) + 1 = 2` differs from the constructed
`alphabet_len = byte_classes[255] + 1 = 1`. -/
theorem byte_class_max_counterexample :
    badClasses.length = 256 ∧
    (∀ k, k < (DFA.empty_with_byte_classes 0 badClasses).alphabet_len →
      k ∈ badClasses) ∧
    (DFA.empty_with_byte_classes 0 badClasses).alphabet_len = 1 ∧
    maxClass badClasses + 1 = 2 ∧
    (DFA.empty_with_byte_classes 0 badClasses).alphabet_len ≠
      maxClass badClasses + 1 := by
  refine ⟨by decide, ?_, by decide, by decide, by decide⟩
  intro k hk
  have h1 : (DFA.empty_with_byte_classes 0 badClasses).alphabet_len = 1 := by decide
  rw [h1] at hk
  have hk0 : k = 0 := by omega
  rw [hk0]
  decide

/-! ## Claim C5: serialization layout -/

lemma writeBytes_length (e : Endian) (width v : Nat) :
    (writeBytes e width v).length = width := by
  cases e <;> simp [writeBytes]

lemma transBytes_length (e : Endian) (width : Nat) :
    ∀ l : List Nat, (transBytes e width l).length = width * l.length := by
  intro l
  induction l with
  | nil => simp [transBytes]
  | cons a l ih =>
    simp [transBytes, writeBytes_length, ih]
    ring

lemma dfaLabel_length : dfaLabel.length = 24 := rfl

lemma classBytes_length (dfa : DFA)
    (hbc : dfa.byte_classes = [] ∨ dfa.byte_classes.length = 256) :
    (classBytes dfa).length = 256 := by
  unfold classBytes
  rcases hbc with h | h
  · simp [h]
  · cases hb : dfa.byte_classes with
    | nil =>
      rw [hb] at h
      simp at h
    | cons a l =>
      rw [hb] at h
      simp [hb, h]

/-- Dropping a leading segment of known length. -/
lemma drop_chunk {buf seg rest : List Nat} {k m : Nat}
    (hbuf : buf.drop k = seg ++ rest) (hseg : seg.length = m) :
    buf.drop (k + m) = rest := by
  have h := List.drop_drop m k buf
  rw [hbuf] at h
  rw [← h]
  exact List.drop_left' hseg

/-- Reading a leading segment of known length. -/
lemma take_chunk {buf seg rest : List Nat} {k m : Nat}
    (hbuf : buf.drop k = seg ++ rest) (hseg : seg.length = m) :
    (buf.drop k).take m = seg := by
  rw [hbuf]
  exact List.take_left' hseg

/-- C5: for a state-id width in {1, 2, 4, 8} and any chosen endianness,
`to_bytes` returns `Ok` with a buffer of length
`320 + state_count * alphabet_len * width` laid out as the wire format
prescribes (label, endian marker 0xFEFF, version 1, width, kind tag, the
four u64 header fields, the 256-byte class map — the identity map when
`byte_classes` is empty — and the row-major transition table from offset
320); for any other width it fails with a `SerializeError`.
(`NativeEndian` is `little` or `big` according to the platform, so the
quantification over `e` covers all three of the source's entry points.) -/
theorem to_bytes_spec (e : Endian) (width : Nat) (dfa : DFA)
    (hwf : dfa.trans.length = dfa.state_count * dfa.alphabet_len)
    (hbc : dfa.byte_classes = [] ∨ dfa.byte_classes.length = 256) :
    ((width = 1 ∨ width = 2 ∨ width = 4 ∨ width = 8) →
      ∃ buf, dfa.to_bytes e width = Except.ok buf ∧
        SerializedLayout e width dfa buf) ∧
    (¬(width = 1 ∨ width = 2 ∨ width = 4 ∨ width = 8) →
      ∃ msg, dfa.to_bytes e width = Except.error (Error.SerializeError msg)) := by
  constructor
  · intro hw
    refine ⟨dfaLabel
        ++ (writeBytes e 2 0xFEFF
        ++ (writeBytes e 2 1
        ++ (writeBytes e 2 width
        ++ (writeBytes e 2 dfa.kind.to_byte
        ++ (writeBytes e 8 dfa.start
        ++ (writeBytes e 8 dfa.state_count
        ++ (writeBytes e 8 dfa.max_match
        ++ (writeBytes e 8 dfa.alphabet_len
        ++ (classBytes dfa
        ++ transBytes e width dfa.trans))))))))), ?_, ?_⟩
    · unfold DFA.to_bytes
      rw [if_pos hw]
      congr 1
      simp [List.append_assoc]
    · have h0 : (dfaLabel
          ++ (writeBytes e 2 0xFEFF
          ++ (writeBytes e 2 1
          ++ (writeBytes e 2 width
          ++ (writeBytes e 2 dfa.kind.to_byte
          ++ (writeBytes e 8 dfa.start
          ++ (writeBytes e 8 dfa.state_count
          ++ (writeBytes e 8 dfa.max_match
          ++ (writeBytes e 8 dfa.alphabet_len
          ++ (classBytes dfa
          ++ transBytes e width dfa.trans)))))))))).drop 0 =
          dfaLabel ++ (writeBytes e 2 0xFEFF
          ++ (writeBytes e 2 1
          ++ (writeBytes e 2 width
          ++ (writeBytes e 2 dfa.kind.to_byte
          ++ (writeBytes e 8 dfa.start
          ++ (writeBytes e 8 dfa.state_count
          ++ (writeBytes e 8 dfa.max_match
          ++ (writeBytes e 8 dfa.alphabet_len
          ++ (classBytes dfa
          ++ transBytes e width dfa.trans))))))))) := by
        rw [List.drop_zero]
      have h24 := drop_chunk h0 dfaLabel_length
      norm_num at h24
      have h26 := drop_chunk h24 (writeBytes_length e 2 0xFEFF)
      norm_num at h26
      have h28 := drop_chunk h26 (writeBytes_length e 2 1)
      norm_num at h28
      have h30 := drop_chunk h28 (writeBytes_length e 2 width)
      norm_num at h30
      have h32 := drop_chunk h30 (writeBytes_length e 2 dfa.kind.to_byte)
      norm_num at h32
      have h40 := drop_chunk h32 (writeBytes_length e 8 dfa.start)
      norm_num at h40
      have h48 := drop_chunk h40 (writeBytes_length e 8 dfa.state_count)
      norm_num at h48
      have h56 := drop_chunk h48 (writeBytes_length e 8 dfa.max_match)
      norm_num at h56
      have h64 := drop_chunk h56 (writeBytes_length e 8 dfa.alphabet_len)
      norm_num at h64
      have h320 := drop_chunk h64 (classBytes_length dfa hbc)
      norm_num at h320
      refine ⟨?_, ?_, ?_, ?_, ?_, ?_, ?_, ?_, ?_, ?_, ?_, h320⟩
      · simp only [List.length_append, dfaLabel_length, writeBytes_length,
          classBytes_length dfa hbc, transBytes_length, hwf]
        ring
      · have := take_chunk h0 dfaLabel_length
        simpa using this
      · exact take_chunk h24 (writeBytes_length e 2 0xFEFF)
      · exact take_chunk h26 (writeBytes_length e 2 1)
      · exact take_chunk h28 (writeBytes_length e 2 width)
      · exact take_chunk h30 (writeBytes_length e 2 dfa.kind.to_byte)
      · exact take_chunk h32 (writeBytes_length e 8 dfa.start)
      · exact take_chunk h40 (writeBytes_length e 8 dfa.state_count)
      · exact take_chunk h48 (writeBytes_length e 8 dfa.max_match)
      · exact take_chunk h56 (writeBytes_length e 8 dfa.alphabet_len)
      · exact take_chunk h64 (classBytes_length dfa hbc)
  · intro hw
    refine ⟨"state size of " ++ toString width ++ " not supported, must be 1, 2, 4 or 8", ?_⟩
    unfold DFA.to_bytes
    rw [if_neg hw]

/-- Witness for C5 on `dfaLen3` with 2-byte ids in both endiannesses, plus
the failure regime at the unsupported width 3. -/
theorem to_bytes_spec_witness :
    (((2 = 1 ∨ 2 = 2 ∨ 2 = 4 ∨ 2 = 8) →
      ∃ buf, dfaLen3.to_bytes Endian.little 2 = Except.ok buf ∧
        SerializedLayout Endian.little 2 dfaLen3 buf) ∧
    (¬(2 = 1 ∨ 2 = 2 ∨ 2 = 4 ∨ 2 = 8) →
      ∃ msg, dfaLen3.to_bytes Endian.little 2 =
        Except.error (Error.SerializeError msg))) ∧
    ((2 = 1 ∨ 2 = 2 ∨ 2 = 4 ∨ 2 = 8) →
      ∃ buf, dfaLen3.to_bytes Endian.big 2 = Except.ok buf ∧
        SerializedLayout Endian.big 2 dfaLen3 buf) ∧
    (¬(3 = 1 ∨ 3 = 2 ∨ 3 = 4 ∨ 3 = 8) →
      ∃ msg, dfaLen3.to_bytes Endian.little 3 =
        Except.error (Error.SerializeError msg)) :=
  ⟨to_bytes_spec Endian.little 2 dfaLen3 (by decide) (Or.inl rfl),
   (to_bytes_spec Endian.big 2 dfaLen3 (by decide) (Or.inl rfl)).1,
   (to_bytes_spec Endian.little 3 dfaLen3 (by decide) (Or.inl rfl)).2⟩

/-! ## Claim C10: `sparse_transitions` -/

lemma expandRanges_append (l1 l2 : List (Nat × Nat × Nat)) :
    expandRanges (l1 ++ l2) = expandRanges l1 ++ expandRanges l2 := by
  induction l1 with
  | nil => simp [expandRanges]
  | cons a l ih =>
    obtain ⟨lo, hi, nx⟩ := a
    simp [expandRanges, ih]

lemma take_succ_getD {ts : List Nat} {i : Nat} (h : i < ts.length) :
    ts.take (i + 1) = ts.take i ++ [ts.getD i 0] := by
  rw [List.take_succ, List.getElem?_eq_getElem h]
  rw [List.getD_eq_getElem?_getD, List.getElem?_eq_getElem h]
  rfl

lemma getD_of_drop {ts rest : List Nat} {i x : Nat}
    (h : ts.drop i = x :: rest) : ts.getD i 0 = x := by
  have h0 : (ts.drop i)[0]? = some x := by
    rw [h]
    simp
  rw [List.getElem?_drop] at h0
  have h1 : ts[i]? = some x := by
    simpa using h0
  rw [List.getD_eq_getElem?_getD, h1]
  rfl

lemma lt_length_of_drop_cons {ts rest : List Nat} {i x : Nat}
    (h : ts.drop i = x :: rest) : i < ts.length := by
  by_contra hc
  rw [List.drop_eq_nil_iff.mpr (by omega)] at h
  cases h

lemma drop_succ_of_drop_cons {ts rest : List Nat} {i x : Nat}
    (h : ts.drop i = x :: rest) : ts.drop (i + 1) = rest := by
  have hd := List.drop_drop 1 i ts
  rw [h] at hd
  rw [← hd]
  rfl

/-- Extending the current open range by one column preserves the
invariant. -/
lemma sparseInv_extend {ts : List Nat} {i ps pe pn : Nat}
    {ranges : List (Nat × Nat × Nat)}
    (hinv : SparseInvL ts i (ranges ++ [(ps, pe, pn)]))
    (hi : i = pe + 1) (hilt : i < ts.length) (hgetD : ts.getD i 0 = pn) :
    SparseInvL ts (i + 1) (ranges ++ [(ps, i, pn)]) := by
  obtain ⟨hne, hhead, hlast, hmem, hchain, hexp⟩ := hinv
  have hps : ps ≤ pe := (hmem (ps, pe, pn) (by simp)).1
  refine ⟨by simp, ?_, ?_, ?_, ?_, ?_⟩
  · intro t ht
    cases ranges with
    | nil =>
      rw [List.nil_append, List.head?_cons] at ht
      cases ht
      exact hhead (ps, pe, pn) (by rw [List.nil_append, List.head?_cons])
    | cons r rs =>
      rw [List.cons_append, List.head?_cons] at ht
      cases ht
      exact hhead t (by rw [List.cons_append, List.head?_cons])
  · intro t ht
    rw [List.getLast?_concat] at ht
    cases ht
    simp
  · intro t ht
    rcases List.mem_append.mp ht with ht | ht
    · exact hmem t (List.mem_append.mpr (Or.inl ht))
    · rw [List.mem_singleton] at ht
      subst ht
      refine ⟨show ps ≤ i by omega, ?_⟩
      intro b hb1 hb2
      have hb1a : ps ≤ b := hb1
      have hb2a : b ≤ i := hb2
      show ts.getD b 0 = pn
      by_cases hbe : b ≤ pe
      · exact (hmem (ps, pe, pn) (by simp)).2 b hb1a hbe
      · have hbi : b = i := by omega
        rw [hbi, hgetD]
  · rcases List.chain'_append.mp hchain with ⟨hc1, _, hc3⟩
    apply List.chain'_append.mpr
    refine ⟨hc1, List.chain'_singleton _, ?_⟩
    intro x hx y hy
    simp only [List.head?_cons, Option.mem_def, Option.some.injEq] at hy
    subst hy
    exact hc3 x hx (ps, pe, pn) (by simp)
  · rw [expandRanges_append] at hexp ⊢
    simp only [expandRanges, List.append_nil] at hexp ⊢
    have hrep : i + 1 - ps = (pe + 1 - ps) + 1 := by omega
    rw [hrep, List.replicate_succ', take_succ_getD hilt, ← hexp, hgetD]
    simp [List.append_assoc]

/-- Closing the current range and opening a fresh one-column range
preserves the invariant. -/
lemma sparseInv_push {ts : List Nat} {i ps pe pn nx : Nat}
    {ranges : List (Nat × Nat × Nat)}
    (hinv : SparseInvL ts i (ranges ++ [(ps, pe, pn)]))
    (hi : i = pe + 1) (hilt : i < ts.length) (hgetD : ts.getD i 0 = nx)
    (hnepn : pn ≠ nx) :
    SparseInvL ts (i + 1) ((ranges ++ [(ps, pe, pn)]) ++ [(i, i, nx)]) := by
  obtain ⟨hne, hhead, hlast, hmem, hchain, hexp⟩ := hinv
  refine ⟨by simp, ?_, ?_, ?_, ?_, ?_⟩
  · intro t ht
    rw [List.head?_append] at ht
    cases hL : (ranges ++ [(ps, pe, pn)]).head? with
    | none =>
      rw [List.head?_eq_none_iff] at hL
      exact absurd hL hne
    | some r =>
      rw [hL] at ht
      simp only [Option.or_some, Option.some.injEq] at ht
      subst ht
      exact hhead r hL
  · intro t ht
    rw [List.getLast?_concat] at ht
    cases ht
    simp
  · intro t ht
    rcases List.mem_append.mp ht with ht | ht
    · exact hmem t ht
    · rw [List.mem_singleton] at ht
      subst ht
      refine ⟨Nat.le_refl _, ?_⟩
      intro b hb1 hb2
      have hb1a : i ≤ b := hb1
      have hb2a : b ≤ i := hb2
      show ts.getD b 0 = nx
      have hbi : b = i := by omega
      rw [hbi, hgetD]
  · apply List.chain'_append.mpr
    refine ⟨hchain, List.chain'_singleton _, ?_⟩
    intro x hx y hy
    rw [List.getLast?_concat] at hx
    simp only [Option.mem_def, Option.some.injEq, List.head?_cons] at hx hy
    subst hx
    subst hy
    exact ⟨by simp [hi], by simpa using hnepn⟩
  · rw [expandRanges_append, hexp]
    simp only [expandRanges, List.append_nil]
    have h1 : i + 1 - i = 1 := by omega
    rw [h1, take_succ_getD hilt, hgetD]
    rfl

/-- The `sparse_transitions` fold carries the invariant to the end of the
row. -/
lemma sparseGo_spec {ts : List Nat} (hlen : ts.length ≤ 256) :
    ∀ (rest : List Nat) (i ps pe pn : Nat) (ranges : List (Nat × Nat × Nat)),
      ts.drop i = rest → i = pe + 1 → i ≤ ts.length →
      SparseInvL ts i (ranges ++ [(ps, pe, pn)]) →
      SparseInvL ts ts.length (sparseGo i (some (ps, pe, pn)) ranges rest) := by
  intro rest
  induction rest with
  | nil =>
    intro i ps pe pn ranges hdrop hi hile hinv
    have hle : ts.length ≤ i := List.drop_eq_nil_iff.mp hdrop
    have hieq : i = ts.length := by omega
    simp only [sparseGo]
    rw [← hieq]
    exact hinv
  | cons nx rest ih =>
    intro i ps pe pn ranges hdrop hi hile hinv
    have hilt : i < ts.length := lt_length_of_drop_cons hdrop
    have hgetD : ts.getD i 0 = nx := getD_of_drop hdrop
    have hdrop2 : ts.drop (i + 1) = rest := drop_succ_of_drop_cons hdrop
    have hb : i % 256 = i := Nat.mod_eq_of_lt (by omega)
    simp only [sparseGo, hb]
    by_cases heq : pn = nx
    · rw [if_pos heq]
      exact ih (i + 1) ps i pn ranges hdrop2 rfl (by omega)
        (sparseInv_extend hinv hi hilt (by rw [hgetD, heq]))
    · rw [if_neg heq]
      exact ih (i + 1) i i nx (ranges ++ [(ps, pe, pn)]) hdrop2 rfl (by omega)
        (sparseInv_push hinv hi hilt hgetD heq)

/-- C10: for every non-empty state row of at most 256 columns,
`sparse_transitions` returns triples `(byte_lo, byte_hi, next)` that exactly
tile the row: the first triple starts at byte 0; within each triple
`byte_lo ≤ byte_hi` and every column in the span holds `next`; each
subsequent triple starts at the previous `byte_hi + 1` with a different
`next`; the last triple ends at the final column; and expanding the triples
reconstructs the row. -/
theorem sparse_transitions_spec (ts : List Nat) (hne : ts ≠ [])
    (hlen : ts.length ≤ 256) :
    sparse_transitions ts ≠ [] ∧
    (∀ t, (sparse_transitions ts).head? = some t → t.1 = 0) ∧
    (∀ t, (sparse_transitions ts).getLast? = some t →
      t.2.1 = ts.length - 1) ∧
    (∀ t ∈ sparse_transitions ts, t.1 ≤ t.2.1 ∧
      ∀ b, t.1 ≤ b → b ≤ t.2.1 → ts.getD b 0 = t.2.2) ∧
    List.Chain' (fun t u => u.1 = t.2.1 + 1 ∧ t.2.2 ≠ u.2.2)
      (sparse_transitions ts) ∧
    expandRanges (sparse_transitions ts) = ts := by
  obtain ⟨x, rest, rfl⟩ : ∃ x rest, ts = x :: rest := by
    cases ts with
    | nil => exact absurd rfl hne
    | cons x rest => exact ⟨x, rest, rfl⟩
  have hstart : sparse_transitions (x :: rest) =
      sparseGo 1 (some (0, 0, x)) [] rest := by
    simp [sparse_transitions, sparseGo]
  have hinv1 : SparseInvL (x :: rest) 1 ([] ++ [(0, 0, x)]) := by
    refine ⟨by simp, ?_, ?_, ?_, by simp, ?_⟩
    · intro t ht
      rw [List.nil_append, List.head?_cons] at ht
      cases ht
      rfl
    · intro t ht
      simp only [List.nil_append, List.getLast?_singleton,
        Option.some.injEq] at ht
      subst ht
      rfl
    · intro t ht
      rw [List.nil_append, List.mem_singleton] at ht
      subst ht
      refine ⟨Nat.le_refl _, ?_⟩
      intro b hb1 hb2
      have hb2a : b ≤ 0 := hb2
      show (x :: rest).getD b 0 = x
      have hb0 : b = 0 := by omega
      rw [hb0]
      rfl
    · simp [expandRanges]
  have hfin := @sparseGo_spec (x :: rest) hlen rest 1 0 0 x []
    (by rfl) rfl (by simp) hinv1
  rw [hstart]
  obtain ⟨f1, f2, f3, f4, f5, f6⟩ := hfin
  exact ⟨f1, f2, f3, f4, f5, by rw [f6, List.take_length]⟩

/-- Witness for C10 on the row `[5, 5, 7]`, which coalesces into
`(0,1,5), (2,2,7)`. -/
theorem sparse_transitions_spec_witness :
    sparse_transitions [5, 5, 7] ≠ [] ∧
    (∀ t, (sparse_transitions [5, 5, 7]).head? = some t → t.1 = 0) ∧
    (∀ t, (sparse_transitions [5, 5, 7]).getLast? = some t →
      t.2.1 = [5, 5, 7].length - 1) ∧
    (∀ t ∈ sparse_transitions [5, 5, 7], t.1 ≤ t.2.1 ∧
      ∀ b, t.1 ≤ b → b ≤ t.2.1 → [5, 5, 7].getD b 0 = t.2.2) ∧
    List.Chain' (fun t u => u.1 = t.2.1 + 1 ∧ t.2.2 ≠ u.2.2)
      (sparse_transitions [5, 5, 7]) ∧
    expandRanges (sparse_transitions [5, 5, 7]) = [5, 5, 7] :=
  sparse_transitions_spec [5, 5, 7] (by decide) (by decide)

end RegexAutomata
